import Mathlib

/-!
# Verification of `OllamaCAD/OllamaRAG_Multi.py`

A shallow embedding of the pure logic of the pipeline: text normalization
(`normalize_ws`), sliding-window chunking (`chunk_text`), embedding-vector
scaling (`OllamaEmbedder.embed`), citation-tag construction and the metadata
produced by `RAGPipeline.ingest_folder`, and the retrieval fallback in
`RAGPipeline.query`.  Strings are modelled as `List Char` (Python `str` is a
sequence of code points), with `String` wrappers at the outer interfaces.
-/

set_option maxHeartbeats 1600000

/-! ## Text normalizer (`normalize_ws`, source lines 52-56) -/

/-- Python `text.replace("\r\n", "\n")`: left-to-right, non-overlapping. -/
def replCRLF : List Char → List Char
  | [] => []
  | [c] => [c]
  | a :: b :: rest =>
    if a = '\r' ∧ b = '\n' then '\n' :: replCRLF rest
    else a :: replCRLF (b :: rest)

/-- Python `text.replace("\r", "\n")`. -/
def replCR (l : List Char) : List Char := l.map (fun c => if c = '\r' then '\n' else c)

/-- A horizontal-whitespace character, the class `[ \t]`. -/
def isHT (c : Char) : Bool := c == ' ' || c == '\t'

/-- State machine for `re.sub(r"[ \t]+", " ", text)`: the flag records
whether we are inside a run of spaces/tabs (which has already emitted its
single replacement space). -/
def collapseHWSGo : Bool → List Char → List Char
  | _, [] => []
  | inRun, c :: rest =>
    if isHT c then
      if inRun then collapseHWSGo true rest
      else ' ' :: collapseHWSGo true rest
    else c :: collapseHWSGo false rest

/-- Python `re.sub(r"[ \t]+", " ", text)`: every maximal run of spaces/tabs
becomes a single space. -/
def collapseHWS (l : List Char) : List Char := collapseHWSGo false l

/-- State machine for `re.sub(r"\n{3,}", "\n\n", text)`: `k` counts the
newlines already seen in the current newline run; only the first two of a
run are kept. -/
def collapseNLGo : Nat → List Char → List Char
  | _, [] => []
  | k, c :: rest =>
    if c = '\n' then
      (if k < 2 then ['\n'] else []) ++ collapseNLGo (k + 1) rest
    else c :: collapseNLGo 0 rest

/-- Python `re.sub(r"\n{3,}", "\n\n", text)`: every maximal run of three or
more newlines becomes exactly two; shorter runs are kept. -/
def collapseNL (l : List Char) : List Char := collapseNLGo 0 l

/-- The whitespace class stripped by Python `str.strip()`
(characters `c` with `c.isspace()`). -/
def isPyWS (c : Char) : Bool :=
  c == ' ' || c == '\t' || c == '\n' || c == '\r' || c == '\x0b' || c == '\x0c' ||
  (0x1c ≤ c.toNat && c.toNat ≤ 0x1f) || c.toNat == 0x85 || c.toNat == 0xa0 ||
  c.toNat == 0x1680 || (0x2000 ≤ c.toNat && c.toNat ≤ 0x200a) ||
  c.toNat == 0x2028 || c.toNat == 0x2029 || c.toNat == 0x202f ||
  c.toNat == 0x205f || c.toNat == 0x3000

/-- Remove trailing characters satisfying `p`. -/
def dropTrail (p : Char → Bool) (l : List Char) : List Char := (l.reverse.dropWhile p).reverse

/-- Python `str.strip()`. -/
def pyStrip (l : List Char) : List Char := dropTrail isPyWS (l.dropWhile isPyWS)

/-- `normalize_ws` on `List Char`: CRLF/CR to LF, collapse horizontal
whitespace runs, collapse 3+ newline runs to two, strip both ends. -/
def normWsL (l : List Char) : List Char :=
  pyStrip (collapseNL (collapseHWS (replCR (replCRLF l))))

/-- `normalize_ws` from the source. -/
def normalize_ws (s : String) : String := String.mk (normWsL s.data)

/-! ## Chunker (`chunk_text`, source lines 59-71) -/

/-- `text[a:b]` for `0 ≤ a ≤ b` (the only shape used by `chunk_text`). -/
def sliceL (t : List Char) (a b : Nat) : List Char := (t.drop a).take (b - a)

/-- The `while start < len(text)` loop of `chunk_text`.  `fuel` bounds the
number of iterations (the Python loop has no such bound; `none` means the
loop did not finish within `fuel` iterations).  One iteration: take the
slice `[start, min(len, start+chunk_chars))`, stop if it reaches the end,
otherwise continue from `end - overlap` (truncated at 0, as
`max(0, end - overlap)` in the source — `Nat` subtraction). -/
def chunkGo (t : List Char) (chunkChars overlap : Nat) : Nat → Nat → Option (List (List Char))
  | 0, start => if start < t.length then none else some []
  | fuel + 1, start =>
    if start < t.length then
      let e := min t.length (start + chunkChars)
      let piece := sliceL t start e
      if e = t.length then some [piece]
      else
        match chunkGo t chunkChars overlap fuel (e - overlap) with
        | none => none
        | some rest => some (piece :: rest)
    else some []

/-- `chunk_text` on `List Char`: normalize, then run the loop.  A fuel of
`length` iterations is sufficient whenever the loop terminates at all
(each iteration either finishes or advances `start` by at least one when
`overlap < chunk_chars`). -/
def chunkTextL (t : List Char) (C O : Nat) : Option (List (List Char)) :=
  let n := normWsL t
  chunkGo n C O n.length 0

/-- `chunk_text` from the source.  `none` models non-termination of the
`while` loop. -/
def chunk_text (s : String) (C O : Nat) : Option (List String) :=
  (chunkTextL s.data C O).map (fun cs => cs.map String.mk)

/-- The loop of `chunk_text` terminates on input `s` with parameters `C`, `O`. -/
def chunkTerminates (s : String) (C O : Nat) : Prop :=
  ∃ fuel, (chunkGo (normWsL s.data) C O fuel 0).isSome

/-- Number of chunks the loop produces from offset `start` on a text of
length `L` (closed form; `Nat` subtraction makes the `L - start ≤ O` case
come out as `1` as well). -/
def numChunks (L C O start : Nat) : Nat :=
  if start < L then (L - start - O - 1) / (C - O) + 1 else 0

/-- Closed form of the chunk list produced from offset `start`: chunk `i`
is the slice starting at `start + i*(C-O)` of length at most `C`. -/
def chunkFrom (t : List Char) (C O start : Nat) : List (List Char) :=
  (List.range (numChunks t.length C O start)).map
    (fun i => sliceL t (start + i * (C - O)) (min t.length (start + i * (C - O) + C)))

theorem chunkGo_eq (t : List Char) (C O : Nat) (hO : O < C) :
    ∀ fuel start, t.length - start ≤ fuel →
      chunkGo t C O fuel start = some (chunkFrom t C O start) := by
  intro fuel
  induction fuel with
  | zero =>
    intro start h
    have hs : ¬ start < t.length := by omega
    simp [chunkGo, hs, chunkFrom, numChunks]
  | succ fuel ih =>
    intro start h
    by_cases hs : start < t.length
    · by_cases he : min t.length (start + C) = t.length
      · -- last iteration: the chunk reaches the end of the text
        have hLC : t.length ≤ start + C := by omega
        have hnum : numChunks t.length C O start = 1 := by
          have : t.length - start - O - 1 < C - O := by omega
          simp [numChunks, hs, Nat.div_eq_of_lt this]
        simp only [chunkGo, hs, if_true, he, if_pos rfl]
        simp [chunkFrom, hnum, List.range_succ, he]
      · -- the loop continues from `start + C - O`
        have he' : start + C < t.length := by
          rcases Nat.lt_or_ge (start + C) t.length with h' | h'
          · exact h'
          · exact absurd (by omega : min t.length (start + C) = t.length) he
        have hmin : min t.length (start + C) = start + C := by omega
        have hih : chunkGo t C O fuel (start + (C - O)) =
            some (chunkFrom t C O (start + (C - O))) := ih _ (by omega)
        have hnum : numChunks t.length C O start =
            numChunks t.length C O (start + (C - O)) + 1 := by
          have h1 : start < t.length := hs
          have h2 : start + (C - O) < t.length := by omega
          have hle : C - O ≤ t.length - start - O - 1 := by omega
          have hdiv := @Nat.div_eq_sub_div (C - O) (t.length - start - O - 1)
            (by omega) hle
          have harg : t.length - start - O - 1 - (C - O) =
              t.length - (start + (C - O)) - O - 1 := by omega
          rw [harg] at hdiv
          simp only [numChunks, h1, if_true, h2, hdiv]
        have hne : ¬ (start + C = t.length) := by omega
        have hstep : start + C - O = start + (C - O) := by omega
        simp only [chunkGo, hs, if_true, hmin, hne, if_false, hstep, hih]
        conv_rhs => rw [chunkFrom, hnum, List.range_succ_eq_map]
        simp only [List.map_cons, List.map_map]
        congr 1
        congr 1
        · simp [hmin]
        · rw [chunkFrom]
          apply List.map_congr_left
          intro i _
          simp only [Function.comp_apply, Nat.succ_eq_add_one]
          have harg2 : start + (i + 1) * (C - O) = start + (C - O) + i * (C - O) := by ring
          rw [harg2]
    · have hnum : numChunks t.length C O start = 0 := by simp [numChunks, hs]
      simp [chunkGo, hs, chunkFrom, hnum]

theorem chunkTextL_eq (t : List Char) (C O : Nat) (hO : O < C) :
    chunkTextL t C O = some (chunkFrom (normWsL t) C O 0) :=
  chunkGo_eq (normWsL t) C O hO _ 0 (by omega)

theorem sliceL_length (t : List Char) (a b : Nat) :
    (sliceL t a b).length = min (b - a) (t.length - a) := by
  simp [sliceL]

theorem chunkFrom_length (t : List Char) (C O : Nat) :
    (chunkFrom t C O 0).length = numChunks t.length C O 0 := by
  simp [chunkFrom]

theorem chunkFrom_getElem (t : List Char) (C O : Nat) (i : Nat)
    (h : i < (chunkFrom t C O 0).length) :
    (chunkFrom t C O 0)[i] =
      sliceL t (i * (C - O)) (min t.length (i * (C - O) + C)) := by
  simp only [chunkFrom] at h ⊢
  rw [List.getElem_map, List.getElem_range]
  simp

theorem numChunks_start_lt (L C O i : Nat) (hO : O < C) (hi : i < numChunks L C O 0)
    (hL : 0 < L) : i * (C - O) ≤ L - O - 1 := by
  have h0 : (0 : Nat) < L := hL
  simp only [numChunks, h0, if_true, Nat.sub_zero] at hi
  have hle : i ≤ (L - O - 1) / (C - O) := by omega
  exact (Nat.le_div_iff_mul_le (by omega)).mp hle

theorem numChunks_pos_iff (L C O : Nat) : 0 < numChunks L C O 0 ↔ 0 < L := by
  by_cases h : 0 < L <;> simp [numChunks, h]

theorem numChunks_inner (L C O i : Nat) (hO : O < C) (hi : i + 1 < numChunks L C O 0) :
    i * (C - O) + C < L := by
  have hL : 0 < L := by
    by_contra h
    simp [numChunks, show ¬ (0 < L) from h] at hi
  have h1 : (i + 1) * (C - O) ≤ L - O - 1 := numChunks_start_lt L C O (i + 1) hO hi hL
  have h2 : (i + 1) * (C - O) = i * (C - O) + (C - O) := by ring
  have h3 := h1
  rw [h2] at h3
  generalize i * (C - O) = x at h3 ⊢
  omega

theorem numChunks_last (L C O : Nat) (hO : O < C) (hL : 0 < L) :
    L ≤ (numChunks L C O 0 - 1) * (C - O) + C := by
  simp only [numChunks, hL, if_true, Nat.sub_zero, Nat.add_sub_cancel]
  have hD : 0 < C - O := by omega
  have hdm := Nat.div_add_mod (L - O - 1) (C - O)
  have hmod := Nat.mod_lt (L - O - 1) hD
  generalize hq : (L - O - 1) / (C - O) = q at hdm ⊢
  generalize hr : (L - O - 1) % (C - O) = r at hdm hmod
  have : q * (C - O) = (C - O) * q := Nat.mul_comm _ _
  rw [this]
  omega

theorem chunkFrom_get_length (t : List Char) (C O : Nat) (hO : O < C) (i : Nat)
    (h : i < (chunkFrom t C O 0).length) :
    (chunkFrom t C O 0)[i].length = min t.length (i * (C - O) + C) - i * (C - O) := by
  rw [chunkFrom_getElem t C O i h, sliceL_length]
  rw [chunkFrom_length] at h
  have hL : 0 < t.length := by
    by_contra hc
    simp [numChunks, show ¬ (0 < t.length) from hc] at h
  have hlt := numChunks_start_lt t.length C O i hO h hL
  generalize i * (C - O) = x at *
  omega

theorem chunkFrom_overlap (t : List Char) (C O : Nat) (hO : O < C) (i : Nat)
    (h1 : i < (chunkFrom t C O 0).length) (h2 : i + 1 < (chunkFrom t C O 0).length) :
    (chunkFrom t C O 0)[i].drop (C - O) = (chunkFrom t C O 0)[i + 1].take O := by
  rw [chunkFrom_getElem t C O i h1, chunkFrom_getElem t C O (i + 1) h2]
  rw [chunkFrom_length] at h1 h2
  have hinner : i * (C - O) + C < t.length := numChunks_inner t.length C O i hO h2
  have hmin1 : min t.length (i * (C - O) + C) = i * (C - O) + C := by omega
  have hL : 0 < t.length := by omega
  have hnext := numChunks_start_lt t.length C O (i + 1) hO h2 hL
  rw [hmin1]
  simp only [sliceL]
  have e1 : i * (C - O) + C - i * (C - O) = C := by omega
  rw [e1, List.drop_take, List.drop_drop]
  have e2 : i * (C - O) + (C - O) = (i + 1) * (C - O) := by ring
  rw [e2, List.take_take]
  have e3 : C - (C - O) = O := by omega
  rw [e3]
  congr 1
  have e4 : (i + 1) * (C - O) + O + 1 ≤ t.length := by
    generalize (i + 1) * (C - O) = z at hnext ⊢
    omega
  generalize (i + 1) * (C - O) = z at e4 ⊢
  omega

/-- **C1**: for text whose normalized length is `L` and parameters `C > 0`,
`0 ≤ O < C`, `chunk_text` produces chunks covering the normalized text
without gaps: empty input yields no chunks; one chunk when `0 < L ≤ O`;
`⌈(L-O)/(C-O)⌉` chunks when `L > O`; chunk `i` is the substring starting at
offset `i*(C-O)` (so the first starts at 0 and each subsequent chunk starts
at the previous end minus `O`); every chunk but the last has length exactly
`C`; the last ends exactly at the text's end; every position is covered;
and consecutive chunks overlap in exactly `O` characters. -/
theorem chunking_window_spec (s : String) (C O : Nat) (hC : 0 < C) (hO : O < C) :
    ∃ cs : List String, chunk_text s C O = some cs ∧
      (((normWsL s.data).length = 0 → cs = []) ∧
       (0 < (normWsL s.data).length → (normWsL s.data).length ≤ O → cs.length = 1) ∧
       (O < (normWsL s.data).length →
         cs.length = ((normWsL s.data).length - O + (C - O) - 1) / (C - O)) ∧
       (∀ i, ∀ h : i < cs.length, (cs.get ⟨i, h⟩).data =
         sliceL (normWsL s.data) (i * (C - O))
           (min (normWsL s.data).length (i * (C - O) + C))) ∧
       (∀ i, ∀ h : i < cs.length, i + 1 < cs.length → (cs.get ⟨i, h⟩).length = C) ∧
       (∀ h : cs ≠ [], (cs.getLast h).data =
         sliceL (normWsL s.data) ((cs.length - 1) * (C - O)) (normWsL s.data).length) ∧
       (∀ p, p < (normWsL s.data).length →
         ∃ i, ∃ _ : i < cs.length, i * (C - O) ≤ p ∧
           p < min (normWsL s.data).length (i * (C - O) + C)) ∧
       (∀ i, ∀ h1 : i < cs.length, ∀ h2 : i + 1 < cs.length,
         (cs.get ⟨i, h1⟩).data.drop (C - O) = (cs.get ⟨i + 1, h2⟩).data.take O)) := by
  classical
  set nt := normWsL s.data with hnt
  set csL := chunkFrom nt C O 0 with hcsL
  have hrun : chunk_text s C O = some (csL.map String.mk) := by
    simp [chunk_text, chunkTextL_eq s.data C O hO, hcsL, hnt]
  refine ⟨csL.map String.mk, hrun, ?_, ?_, ?_, ?_, ?_, ?_, ?_, ?_⟩
  · intro hL0
    have : csL.length = 0 := by
      rw [hcsL, chunkFrom_length, hL0]
      simp [numChunks]
    simp [List.eq_nil_of_length_eq_zero this]
  · intro hLpos hLO
    rw [List.length_map, hcsL, chunkFrom_length]
    simp only [numChunks, hLpos, if_true]
    have hz : nt.length - 0 - O - 1 = 0 := by omega
    rw [hz]
    simp
  · intro hOL
    rw [List.length_map, hcsL, chunkFrom_length]
    have hLpos : 0 < nt.length := by omega
    have harg : nt.length - O + (C - O) - 1 = (nt.length - 0 - O - 1) + (C - O) := by omega
    rw [harg, Nat.add_div_right _ (by omega : 0 < C - O)]
    simp [numChunks, hLpos]
  · intro i h
    rw [List.get_eq_getElem, List.getElem_map]
    exact chunkFrom_getElem nt C O i (by simpa using h)
  · intro i h hnext
    rw [List.get_eq_getElem, List.getElem_map]
    have h' : i < csL.length := by simpa using h
    have hnext' : i + 1 < numChunks nt.length C O 0 := by
      rw [← chunkFrom_length nt C O, ← hcsL]
      simpa using hnext
    have := chunkFrom_get_length nt C O hO i h'
    have hinner : i * (C - O) + C < nt.length := numChunks_inner nt.length C O i hO hnext'
    show (String.mk csL[i]).length = C
    have hslen : (String.mk csL[i]).length = csL[i].length := rfl
    rw [hslen, this]
    generalize i * (C - O) = x at hinner ⊢
    omega
  · intro hne
    have hne' : csL ≠ [] := by
      intro hcontra
      rw [hcontra] at hne
      simp at hne
    have hpos : 0 < csL.length := List.length_pos.mpr hne'
    have hlt : csL.length - 1 < csL.length := by omega
    have hLpos : 0 < nt.length := by
      by_contra hc
      have hz : csL.length = 0 := by
        rw [hcsL, chunkFrom_length]
        simp [numChunks, show ¬ (0 < nt.length) from hc]
      omega
    have hcl : csL.length = numChunks nt.length C O 0 := by
      rw [hcsL, chunkFrom_length]
    have hlast := numChunks_last nt.length C O hO hLpos
    have hminL : min nt.length ((numChunks nt.length C O 0 - 1) * (C - O) + C) =
        nt.length := by
      generalize (numChunks nt.length C O 0 - 1) * (C - O) = z at hlast ⊢
      omega
    have hgl : (List.map String.mk csL).getLast hne = String.mk (csL.getLast hne') := by
      rw [List.getLast_map]
    rw [hgl]
    show csL.getLast hne' =
      sliceL nt (((List.map String.mk csL).length - 1) * (C - O)) nt.length
    rw [List.length_map]
    calc csL.getLast hne' = csL[csL.length - 1] := List.getLast_eq_getElem _ _
      _ = sliceL nt ((csL.length - 1) * (C - O))
            (min nt.length ((csL.length - 1) * (C - O) + C)) :=
        chunkFrom_getElem nt C O (csL.length - 1) (by simpa [hcsL] using hlt)
      _ = sliceL nt ((csL.length - 1) * (C - O)) nt.length := by
        rw [hcl, hminL]
  · intro p hp
    have hLpos : 0 < nt.length := by omega
    set n := numChunks nt.length C O 0 with hn
    have hnpos : 0 < n := (numChunks_pos_iff nt.length C O).mpr hLpos
    have hD : 0 < C - O := by omega
    by_cases hcase : p / (C - O) ≤ n - 1
    · refine ⟨p / (C - O), ?_, ?_, ?_⟩
      · rw [List.length_map, hcsL, chunkFrom_length, ← hn]
        omega
      · exact Nat.div_mul_le_self p (C - O)
      · have hdm := Nat.div_add_mod p (C - O)
        have hmod := Nat.mod_lt p hD
        have hcm : p / (C - O) * (C - O) = (C - O) * (p / (C - O)) := Nat.mul_comm _ _
        rw [hcm]
        generalize hq : (C - O) * (p / (C - O)) = y at hdm
        generalize hr : p % (C - O) = r at hdm hmod
        omega
    · refine ⟨n - 1, ?_, ?_, ?_⟩
      · rw [List.length_map, hcsL, chunkFrom_length, ← hn]
        omega
      · have hge : n ≤ p / (C - O) := by omega
        have := (Nat.le_div_iff_mul_le hD).mp hge
        have heq : n * (C - O) = (n - 1) * (C - O) + (C - O) := by
          have h1 : n - 1 + 1 = n := by omega
          calc n * (C - O) = (n - 1 + 1) * (C - O) := by rw [h1]
            _ = (n - 1) * (C - O) + (C - O) := by ring
        rw [heq] at this
        generalize (n - 1) * (C - O) = z at this ⊢
        omega
      · have hlast := numChunks_last nt.length C O hO hLpos
        rw [← hn] at hlast
        generalize (n - 1) * (C - O) = z at hlast ⊢
        omega
  · intro i h1 h2
    rw [List.get_eq_getElem, List.get_eq_getElem, List.getElem_map, List.getElem_map]
    exact chunkFrom_overlap nt C O hO i (by simpa using h1) (by simpa using h2)

/-- Witness for C1 at `s = "abcdefg"`, `C = 3`, `O = 1`. -/
theorem chunking_window_spec_witness :
    0 < 3 ∧ (1 : Nat) < 3 ∧
    ∃ cs : List String, chunk_text "abcdefg" 3 1 = some cs ∧
      (((normWsL "abcdefg".data).length = 0 → cs = []) ∧
       (0 < (normWsL "abcdefg".data).length → (normWsL "abcdefg".data).length ≤ 1 →
         cs.length = 1) ∧
       (1 < (normWsL "abcdefg".data).length →
         cs.length = ((normWsL "abcdefg".data).length - 1 + (3 - 1) - 1) / (3 - 1)) ∧
       (∀ i, ∀ h : i < cs.length, (cs.get ⟨i, h⟩).data =
         sliceL (normWsL "abcdefg".data) (i * (3 - 1))
           (min (normWsL "abcdefg".data).length (i * (3 - 1) + 3))) ∧
       (∀ i, ∀ h : i < cs.length, i + 1 < cs.length → (cs.get ⟨i, h⟩).length = 3) ∧
       (∀ h : cs ≠ [], (cs.getLast h).data =
         sliceL (normWsL "abcdefg".data) ((cs.length - 1) * (3 - 1))
           (normWsL "abcdefg".data).length) ∧
       (∀ p, p < (normWsL "abcdefg".data).length →
         ∃ i, ∃ _ : i < cs.length, i * (3 - 1) ≤ p ∧
           p < min (normWsL "abcdefg".data).length (i * (3 - 1) + 3)) ∧
       (∀ i, ∀ h1 : i < cs.length, ∀ h2 : i + 1 < cs.length,
         (cs.get ⟨i, h1⟩).data.drop (3 - 1) = (cs.get ⟨i + 1, h2⟩).data.take 1)) :=
  ⟨by decide, by decide, chunking_window_spec "abcdefg" 3 1 (by decide) (by decide)⟩

/-- **C6**: for parameters `C > 0`, `0 ≤ O < C`, the last `O` characters of
every chunk equal the first `O` characters of the next chunk. -/
theorem chunk_overlap_roundtrip (s : String) (C O : Nat) (hC : 0 < C) (hO : O < C) :
    ∃ cs : List String, chunk_text s C O = some cs ∧
      ∀ i, ∀ h1 : i < cs.length, ∀ h2 : i + 1 < cs.length,
        (cs.get ⟨i, h1⟩).data.drop ((cs.get ⟨i, h1⟩).data.length - O) =
          (cs.get ⟨i + 1, h2⟩).data.take O := by
  set nt := normWsL s.data with hnt
  set csL := chunkFrom nt C O 0 with hcsL
  have hrun : chunk_text s C O = some (csL.map String.mk) := by
    simp [chunk_text, chunkTextL_eq s.data C O hO, hcsL, hnt]
  refine ⟨csL.map String.mk, hrun, ?_⟩
  intro i h1 h2
  rw [List.get_eq_getElem, List.get_eq_getElem, List.getElem_map, List.getElem_map]
  have h1' : i < csL.length := by simpa using h1
  have h2' : i + 1 < csL.length := by simpa using h2
  have hlenC : csL[i].length = C := by
    have hnext' : i + 1 < numChunks nt.length C O 0 := by
      rw [← chunkFrom_length nt C O, ← hcsL]
      exact h2'
    have hlen := chunkFrom_get_length nt C O hO i h1'
    have hinner : i * (C - O) + C < nt.length := numChunks_inner nt.length C O i hO hnext'
    show (chunkFrom nt C O 0)[i].length = C
    rw [hlen]
    generalize i * (C - O) = x at hinner ⊢
    omega
  show csL[i].drop (csL[i].length - O) = (csL[i + 1]).take O
  rw [hlenC]
  exact chunkFrom_overlap nt C O hO i (by simpa [hcsL] using h1') (by simpa [hcsL] using h2')

/-- Witness for C6 at `s = "abcdefg"`, `C = 3`, `O = 1`. -/
theorem chunk_overlap_roundtrip_witness :
    0 < 3 ∧ (1 : Nat) < 3 ∧
    ∃ cs : List String, chunk_text "abcdefg" 3 1 = some cs ∧
      ∀ i, ∀ h1 : i < cs.length, ∀ h2 : i + 1 < cs.length,
        (cs.get ⟨i, h1⟩).data.drop ((cs.get ⟨i, h1⟩).data.length - 1) =
          (cs.get ⟨i + 1, h2⟩).data.take 1 :=
  ⟨by decide, by decide, chunk_overlap_roundtrip "abcdefg" 3 1 (by decide) (by decide)⟩

/-! ## Termination of the chunk loop (C2) -/

/-- When `C ≤ O` and the text is longer than `C`, the loop state never
moves: from `start = 0` the window end is `C < L`, and the next start is
`max(0, C - O) = 0` again.  No amount of fuel completes the loop. -/
theorem chunkGo_zero_stuck (t : List Char) (C O : Nat) (hC : 0 < C) (hCO : C ≤ O)
    (hL : C < t.length) : ∀ fuel, chunkGo t C O fuel 0 = none := by
  intro fuel
  induction fuel with
  | zero => simp [chunkGo, show 0 < t.length by omega]
  | succ fuel ih =>
    have hs : 0 < t.length := by omega
    have hmin : min t.length (0 + C) = C := by omega
    have hne : ¬ (min t.length (0 + C) = t.length) := by omega
    have hzero : min t.length (0 + C) - O = 0 := by omega
    simp only [chunkGo, hs, if_true, hne, if_false, hzero, ih]

/-- **C2** (the source is the bug): with `chunk_size = 1` and `overlap = 1`
(an `O ≥ C` misconfiguration) on the two-character text `"ab"`, the
`while` loop of `chunk_text` never terminates — the claimed guard that the
start offset advances on every iteration does not exist in the code. -/
theorem chunk_text_nonterminating : ¬ chunkTerminates "ab" 1 1 := by
  intro hterm
  obtain ⟨fuel, hfuel⟩ := hterm
  have hnorm : normWsL "ab".data = ['a', 'b'] := by decide
  rw [hnorm] at hfuel
  rw [chunkGo_zero_stuck ['a', 'b'] 1 1 (by decide) (by decide) (by decide) fuel] at hfuel
  simp at hfuel

/-! ## Idempotence of the normalizer (C7) -/

/-- Invariant established by `collapseHWS`: no tab anywhere and no two
adjacent horizontal-whitespace characters. -/
def goodH : List Char → Prop
  | [] => True
  | [a] => a ≠ '\t'
  | a :: b :: t => a ≠ '\t' ∧ ¬(isHT a = true ∧ isHT b = true) ∧ goodH (b :: t)

/-- Invariant established by `collapseNL`: no three adjacent newlines. -/
def goodN : List Char → Prop
  | a :: b :: c :: t => ¬(a = '\n' ∧ b = '\n' ∧ c = '\n') ∧ goodN (b :: c :: t)
  | _ => True

theorem goodH_tail : ∀ (a : Char) (l : List Char), goodH (a :: l) → goodH l
  | _, [], _ => trivial
  | _, _ :: _, h => h.2.2

theorem goodN_tail : ∀ (a : Char) (l : List Char), goodN (a :: l) → goodN l
  | _, [], _ => trivial
  | _, [_], _ => trivial
  | _, _ :: _ :: _, h => h.2

theorem goodH_cons (x : Char) (M : List Char) (hx : x ≠ '\t')
    (hadj : ∀ m, M.head? = some m → ¬(isHT x = true ∧ isHT m = true))
    (hM : goodH M) : goodH (x :: M) := by
  cases M with
  | nil => exact hx
  | cons m t => exact ⟨hx, hadj m rfl, hM⟩

theorem goodN_cons (x : Char) (M : List Char)
    (h3 : ∀ m1 m2 t, M = m1 :: m2 :: t → ¬(x = '\n' ∧ m1 = '\n' ∧ m2 = '\n'))
    (hM : goodN M) : goodN (x :: M) := by
  cases M with
  | nil => trivial
  | cons m1 t1 =>
    cases t1 with
    | nil => trivial
    | cons m2 t2 => exact ⟨h3 m1 m2 t2 rfl, hM⟩

theorem goodH_append_left : ∀ (m t : List Char), goodH (m ++ t) → goodH m
  | [], _, _ => trivial
  | [a], t, h => by
    cases t with
    | nil => exact h
    | cons b t' => exact h.1
  | a :: b :: m', t, h => ⟨h.1, h.2.1, goodH_append_left (b :: m') t h.2.2⟩

theorem goodH_append_right : ∀ (m t : List Char), goodH (m ++ t) → goodH t
  | [], _, h => h
  | a :: m', t, h => goodH_append_right m' t (goodH_tail a (m' ++ t) h)

theorem goodN_append_left : ∀ (m t : List Char), goodN (m ++ t) → goodN m
  | [], _, _ => trivial
  | [_], _, _ => trivial
  | [_, _], _, _ => trivial
  | a :: b :: c :: m', t, h => ⟨h.1, goodN_append_left (b :: c :: m') t h.2⟩

theorem goodN_append_right : ∀ (m t : List Char), goodN (m ++ t) → goodN t
  | [], _, h => h
  | a :: m', t, h => goodN_append_right m' t (goodN_tail a (m' ++ t) h)

theorem goodH_noTab : ∀ (l : List Char), goodH l → '\t' ∉ l
  | [], _ => by simp
  | [a], h => by
    simp only [List.mem_singleton]
    exact fun e => h e.symm
  | a :: b :: t, h => by
    intro hmem
    rcases List.mem_cons.mp hmem with he | hmem'
    · exact h.1 he.symm
    · exact goodH_noTab (b :: t) h.2.2 hmem'

theorem dropWhile_head_false (p : Char → Bool) : ∀ (l : List Char) (m : Char),
    (l.dropWhile p).head? = some m → p m = false
  | [], m, h => by simp [List.dropWhile] at h
  | c :: t, m, h => by
    by_cases hc : p c
    · rw [List.dropWhile_cons, if_pos hc] at h
      exact dropWhile_head_false p t m h
    · rw [List.dropWhile_cons, if_neg hc] at h
      simp only [List.head?_cons, Option.some.injEq] at h
      rw [← h]
      exact Bool.not_eq_true _ ▸ (by simpa using hc)

theorem replCRLF_fix : ∀ (l : List Char), '\r' ∉ l → replCRLF l = l
  | [], _ => rfl
  | [c], _ => rfl
  | a :: b :: rest, h => by
    have ha : a ≠ '\r' := by
      intro e
      exact h (by rw [e] at *; exact List.mem_cons_self _ _)
    rw [replCRLF, if_neg (fun hc => ha hc.1),
      replCRLF_fix (b :: rest) (fun hm => h (List.mem_cons_of_mem a hm))]

theorem replCR_fix (l : List Char) (h : '\r' ∉ l) : replCR l = l := by
  rw [replCR]
  conv_rhs => rw [← List.map_id l]
  apply List.map_congr_left
  intro a ha
  simp only [id]
  refine if_neg ?_
  intro e
  rw [e] at ha
  exact h ha

theorem replCR_noCR (l : List Char) : '\r' ∉ replCR l := by
  intro hmem
  rw [replCR] at hmem
  obtain ⟨c, _, hc⟩ := List.mem_map.mp hmem
  by_cases h : c = '\r'
  · rw [if_pos h] at hc
    exact absurd hc (by decide)
  · rw [if_neg h] at hc
    exact h hc

theorem collapseHWSGo_cons_not (b : Bool) (c : Char) (t : List Char) (hc : ¬ isHT c = true) :
    collapseHWSGo b (c :: t) = c :: collapseHWSGo false t := by
  cases b <;> simp only [collapseHWSGo, if_neg hc]

theorem collapseHWSGo_cons_sp (c : Char) (t : List Char) (hc : isHT c = true) :
    collapseHWSGo false (c :: t) = ' ' :: collapseHWSGo true t := by
  simp only [collapseHWSGo, if_pos hc, Bool.false_eq_true, if_false]

theorem collapseHWSGo_cons_run (c : Char) (t : List Char) (hc : isHT c = true) :
    collapseHWSGo true (c :: t) = collapseHWSGo true t := by
  simp [collapseHWSGo, if_pos hc]

theorem collapseHWSGo_head_true : ∀ (l : List Char) (m : Char),
    (collapseHWSGo true l).head? = some m → isHT m = false
  | [], m, h => by simp [collapseHWSGo] at h
  | c :: t, m, h => by
    by_cases hc : isHT c
    · rw [collapseHWSGo_cons_run c t hc] at h
      exact collapseHWSGo_head_true t m h
    · rw [collapseHWSGo_cons_not true c t hc] at h
      simp only [List.head?_cons, Option.some.injEq] at h
      rw [← h]
      simpa using hc

theorem collapseHWSGo_goodH : ∀ (l : List Char) (b : Bool), goodH (collapseHWSGo b l)
  | [], _ => trivial
  | c :: t, b => by
    by_cases hc : isHT c
    · cases b with
      | true =>
        rw [collapseHWSGo_cons_run c t hc]
        exact collapseHWSGo_goodH t true
      | false =>
        rw [collapseHWSGo_cons_sp c t hc]
        refine goodH_cons _ _ (by decide) ?_ (collapseHWSGo_goodH t true)
        intro m hm
        exact fun hp => by rw [collapseHWSGo_head_true t m hm] at hp; exact absurd hp.2 (by simp)
    · rw [collapseHWSGo_cons_not b c t hc]
      refine goodH_cons _ _ (fun e => hc (by rw [e]; rfl)) ?_ (collapseHWSGo_goodH t false)
      intro m _
      exact fun hp => hc hp.1

theorem isHT_space_or_tab (a : Char) (ha : isHT a = true) : a = ' ' ∨ a = '\t' := by
  rcases Bool.or_eq_true _ _ |>.mp ha with h1 | h1
  · exact Or.inl (by simpa using h1)
  · exact Or.inr (by simpa using h1)

theorem collapseHWSGo_fix : ∀ (l : List Char), goodH l → collapseHWSGo false l = l
  | [], _ => rfl
  | [a], h => by
    by_cases ha : isHT a
    · have haSp : a = ' ' := by
        rcases isHT_space_or_tab a ha with h1 | h1
        · exact h1
        · exact absurd h1 h
      subst haSp
      rfl
    · rw [collapseHWSGo_cons_not false a [] ha]
      rfl
  | a :: b :: t, h => by
    have hIH : collapseHWSGo false (b :: t) = b :: t :=
      collapseHWSGo_fix (b :: t) h.2.2
    by_cases ha : isHT a
    · have haSp : a = ' ' := by
        rcases isHT_space_or_tab a ha with h1 | h1
        · exact h1
        · exact absurd h1 h.1
      have hb : ¬ isHT b = true := fun hbt => h.2.1 ⟨ha, hbt⟩
      have hstep : collapseHWSGo false t = t := by
        rw [collapseHWSGo_cons_not false b t hb] at hIH
        injection hIH
      subst haSp
      rw [collapseHWSGo_cons_sp ' ' (b :: t) ha, collapseHWSGo_cons_not true b t hb, hstep]
    · rw [collapseHWSGo_cons_not false a (b :: t) ha, hIH]

theorem collapseNLGo_cons_not (k : Nat) (c : Char) (t : List Char) (hc : ¬ c = '\n') :
    collapseNLGo k (c :: t) = c :: collapseNLGo 0 t := by
  simp only [collapseNLGo, if_neg hc]

theorem collapseNLGo_cons_nl_lt (k : Nat) (t : List Char) (hk : k < 2) :
    collapseNLGo k ('\n' :: t) = '\n' :: collapseNLGo (k + 1) t := by
  simp [collapseNLGo, hk]

theorem collapseNLGo_cons_nl_ge (k : Nat) (t : List Char) (hk : ¬ k < 2) :
    collapseNLGo k ('\n' :: t) = collapseNLGo (k + 1) t := by
  simp [collapseNLGo, hk]

theorem collapseNLGo_head_hi : ∀ (l : List Char) (k : Nat), 2 ≤ k →
    ∀ m, (collapseNLGo k l).head? = some m → m ≠ '\n'
  | [], _, _, m, h => by simp [collapseNLGo] at h
  | c :: t, k, hk, m, h => by
    by_cases hc : c = '\n'
    · subst hc
      rw [collapseNLGo_cons_nl_ge k t (by omega)] at h
      exact collapseNLGo_head_hi t (k + 1) (by omega) m h
    · rw [collapseNLGo_cons_not k c t hc] at h
      simp only [List.head?_cons, Option.some.injEq] at h
      rw [← h]
      exact hc

theorem collapseNLGo_head_zero (l : List Char) : (collapseNLGo 0 l).head? = l.head? := by
  cases l with
  | nil => rfl
  | cons c t =>
    by_cases hc : c = '\n'
    · subst hc
      rw [collapseNLGo_cons_nl_lt 0 t (by omega)]
      rfl
    · rw [collapseNLGo_cons_not 0 c t hc]
      rfl

theorem collapseNLGo_goodN : ∀ (l : List Char),
    goodN (collapseNLGo 0 l) ∧ goodN ('\n' :: collapseNLGo 1 l) ∧
    (∀ k, 2 ≤ k → goodN ('\n' :: '\n' :: collapseNLGo k l) ∧ goodN (collapseNLGo k l))
  | [] => by refine ⟨trivial, trivial, fun k hk => ⟨trivial, trivial⟩⟩
  | c :: t => by
    have IH := collapseNLGo_goodN t
    by_cases hc : c = '\n'
    · subst hc
      refine ⟨?_, ?_, ?_⟩
      · rw [collapseNLGo_cons_nl_lt 0 t (by omega)]
        exact IH.2.1
      · rw [collapseNLGo_cons_nl_lt 1 t (by omega)]
        exact (IH.2.2 2 (by omega)).1
      · intro k hk
        rw [collapseNLGo_cons_nl_ge k t (by omega)]
        constructor
        · exact (IH.2.2 (k + 1) (by omega)).1
        · exact (IH.2.2 (k + 1) (by omega)).2
    · have hout : ∀ k, collapseNLGo k (c :: t) = c :: collapseNLGo 0 t :=
        fun k => collapseNLGo_cons_not k c t hc
      have hcons : goodN (c :: collapseNLGo 0 t) := by
        refine goodN_cons c _ ?_ IH.1
        intro m1 m2 t2 heq
        intro hbad
        exact hc hbad.1
      refine ⟨?_, ?_, ?_⟩
      · rw [hout 0]; exact hcons
      · rw [hout 1]
        refine goodN_cons '\n' _ ?_ hcons
        intro m1 m2 t2 heq
        intro hbad
        have : m1 = c := by
          have := congrArg List.head? heq
          simp at this
          exact this.symm
        exact hc (by rw [← this]; exact hbad.2.1)
      · intro k hk
        constructor
        · rw [hout k]
          refine goodN_cons '\n' _ ?_ ?_
          · intro m1 m2 t2 heq
            intro hbad
            have hm2 : m2 = c := by
              have := congrArg (fun x => List.head? (List.tail x)) heq
              simp at this
              exact this.symm
            exact hc (by rw [← hm2]; exact hbad.2.2)
          · refine goodN_cons '\n' _ ?_ hcons
            intro m1 m2 t2 heq
            intro hbad
            have hm1 : m1 = c := by
              have := congrArg List.head? heq
              simp at this
              exact this.symm
            exact hc (by rw [← hm1]; exact hbad.2.1)
        · rw [hout k]; exact hcons

theorem collapseNLGo_goodH : ∀ (l : List Char) (k : Nat), goodH l → goodH (collapseNLGo k l)
  | [], _, _ => trivial
  | c :: t, k, h => by
    by_cases hc : c = '\n'
    · subst hc
      by_cases hk : k < 2
      · rw [collapseNLGo_cons_nl_lt k t hk]
        refine goodH_cons _ _ (by decide) ?_ (collapseNLGo_goodH t (k + 1) (goodH_tail _ _ h))
        intro m _
        intro hbad
        exact absurd hbad.1 (by decide)
      · rw [collapseNLGo_cons_nl_ge k t hk]
        exact collapseNLGo_goodH t (k + 1) (goodH_tail _ _ h)
    · rw [collapseNLGo_cons_not k c t hc]
      refine goodH_cons _ _ ?_ ?_ (collapseNLGo_goodH t 0 (goodH_tail _ _ h))
      · cases t with
        | nil => exact h
        | cons b t' => exact h.1
      · intro m hm
        rw [collapseNLGo_head_zero t] at hm
        cases t with
        | nil => simp at hm
        | cons b t' =>
          simp only [List.head?_cons, Option.some.injEq] at hm
          rw [← hm]
          exact h.2.1

theorem collapseNLGo_mem : ∀ (l : List Char) (k : Nat) (c : Char),
    c ∈ collapseNLGo k l → c = '\n' ∨ c ∈ l
  | [], _, c, h => by simp [collapseNLGo] at h
  | d :: t, k, c, h => by
    by_cases hd : d = '\n'
    · subst hd
      by_cases hk : k < 2
      · rw [collapseNLGo_cons_nl_lt k t hk] at h
        rcases List.mem_cons.mp h with he | hm
        · exact Or.inl he
        · rcases collapseNLGo_mem t (k + 1) c hm with h1 | h1
          · exact Or.inl h1
          · exact Or.inr (List.mem_cons_of_mem _ h1)
      · rw [collapseNLGo_cons_nl_ge k t hk] at h
        rcases collapseNLGo_mem t (k + 1) c h with h1 | h1
        · exact Or.inl h1
        · exact Or.inr (List.mem_cons_of_mem _ h1)
    · rw [collapseNLGo_cons_not k d t hd] at h
      rcases List.mem_cons.mp h with he | hm
      · exact Or.inr (he ▸ List.mem_cons_self _ _)
      · rcases collapseNLGo_mem t 0 c hm with h1 | h1
        · exact Or.inl h1
        · exact Or.inr (List.mem_cons_of_mem _ h1)

theorem collapseHWSGo_mem : ∀ (l : List Char) (b : Bool) (c : Char),
    c ∈ collapseHWSGo b l → c = ' ' ∨ c ∈ l
  | [], _, c, h => by simp [collapseHWSGo] at h
  | d :: t, b, c, h => by
    by_cases hd : isHT d
    · cases b with
      | true =>
        rw [collapseHWSGo_cons_run d t hd] at h
        rcases collapseHWSGo_mem t true c h with h1 | h1
        · exact Or.inl h1
        · exact Or.inr (List.mem_cons_of_mem _ h1)
      | false =>
        rw [collapseHWSGo_cons_sp d t hd] at h
        rcases List.mem_cons.mp h with he | hm
        · exact Or.inl he
        · rcases collapseHWSGo_mem t true c hm with h1 | h1
          · exact Or.inl h1
          · exact Or.inr (List.mem_cons_of_mem _ h1)
    · rw [collapseHWSGo_cons_not b d t hd] at h
      rcases List.mem_cons.mp h with he | hm
      · exact Or.inr (he ▸ List.mem_cons_self _ _)
      · rcases collapseHWSGo_mem t false c hm with h1 | h1
        · exact Or.inl h1
        · exact Or.inr (List.mem_cons_of_mem _ h1)

theorem collapseNLGo_fix0 : ∀ (l : List Char), goodN l → collapseNLGo 0 l = l
  | [], _ => rfl
  | a :: rest, h => by
    by_cases ha : a = '\n'
    · subst ha
      rw [collapseNLGo_cons_nl_lt 0 rest (by omega)]
      cases rest with
      | nil => rfl
      | cons b t =>
        by_cases hb : b = '\n'
        · subst hb
          rw [collapseNLGo_cons_nl_lt 1 t (by omega)]
          cases t with
          | nil => rfl
          | cons c u =>
            have hc : ¬ c = '\n' := fun hc' => h.1 ⟨rfl, rfl, hc'⟩
            rw [collapseNLGo_cons_not 2 c u hc]
            rw [collapseNLGo_fix0 u (goodN_tail _ _ (goodN_tail _ _ (goodN_tail _ _ h)))]
        · rw [collapseNLGo_cons_not 1 b t hb]
          rw [collapseNLGo_fix0 t (goodN_tail _ _ (goodN_tail _ _ h))]
    · rw [collapseNLGo_cons_not 0 a rest ha]
      rw [collapseNLGo_fix0 rest (goodN_tail _ _ h)]
termination_by l => l.length

theorem dropTrail_append (p : Char → Bool) (l : List Char) :
    dropTrail p l ++ (l.reverse.takeWhile p).reverse = l := by
  rw [dropTrail, ← List.reverse_append, List.takeWhile_append_dropWhile, List.reverse_reverse]

theorem goodH_dropWhile (p : Char → Bool) (l : List Char) (h : goodH l) :
    goodH (l.dropWhile p) := by
  have hsplit := List.takeWhile_append_dropWhile p l
  rw [← hsplit] at h
  exact goodH_append_right _ _ h

theorem goodH_dropTrail (p : Char → Bool) (l : List Char) (h : goodH l) :
    goodH (dropTrail p l) := by
  have hsplit := dropTrail_append p l
  rw [← hsplit] at h
  exact goodH_append_left _ _ h

theorem goodH_pyStrip (l : List Char) (h : goodH l) : goodH (pyStrip l) :=
  goodH_dropTrail _ _ (goodH_dropWhile _ _ h)

theorem goodN_dropWhile (p : Char → Bool) (l : List Char) (h : goodN l) :
    goodN (l.dropWhile p) := by
  have hsplit := List.takeWhile_append_dropWhile p l
  rw [← hsplit] at h
  exact goodN_append_right _ _ h

theorem goodN_dropTrail (p : Char → Bool) (l : List Char) (h : goodN l) :
    goodN (dropTrail p l) := by
  have hsplit := dropTrail_append p l
  rw [← hsplit] at h
  exact goodN_append_left _ _ h

theorem goodN_pyStrip (l : List Char) (h : goodN l) : goodN (pyStrip l) :=
  goodN_dropTrail _ _ (goodN_dropWhile _ _ h)

theorem pyStrip_subset (l : List Char) (c : Char) (h : c ∈ pyStrip l) : c ∈ l := by
  have h1 : c ∈ l.dropWhile isPyWS := by
    have hsplit := dropTrail_append isPyWS (l.dropWhile isPyWS)
    rw [← hsplit]
    exact List.mem_append_left _ h
  have hsplit2 := List.takeWhile_append_dropWhile isPyWS l
  rw [← hsplit2]
  exact List.mem_append_right _ h1

theorem dropWhile_fix (p : Char → Bool) (l : List Char)
    (h : ∀ m, l.head? = some m → p m = false) : l.dropWhile p = l := by
  cases l with
  | nil => rfl
  | cons c t =>
    have hc := h c rfl
    rw [List.dropWhile_cons, if_neg (by simp [hc])]

theorem dropTrail_fix (p : Char → Bool) (l : List Char)
    (h : ∀ m, l.getLast? = some m → p m = false) : dropTrail p l = l := by
  rw [dropTrail, dropWhile_fix p l.reverse ?_, List.reverse_reverse]
  intro m hm
  exact h m (by rwa [List.head?_reverse] at hm)

theorem dropTrail_head (p : Char → Bool) (x : List Char) (m : Char)
    (h : (dropTrail p x).head? = some m) : x.head? = some m := by
  have hsplit := dropTrail_append p x
  rw [← hsplit]
  cases hdt : dropTrail p x with
  | nil => rw [hdt] at h; simp at h
  | cons a t =>
    rw [hdt] at h
    simpa using h

theorem pyStrip_head (l : List Char) (m : Char) (h : (pyStrip l).head? = some m) :
    isPyWS m = false := by
  rw [pyStrip] at h
  exact dropWhile_head_false _ _ _ (dropTrail_head _ _ _ h)

theorem pyStrip_last (l : List Char) (m : Char) (h : (pyStrip l).getLast? = some m) :
    isPyWS m = false := by
  rw [pyStrip, dropTrail, List.getLast?_reverse] at h
  exact dropWhile_head_false _ _ _ h

theorem pyStrip_fix (l : List Char)
    (hh : ∀ m, l.head? = some m → isPyWS m = false)
    (hl : ∀ m, l.getLast? = some m → isPyWS m = false) : pyStrip l = l := by
  rw [pyStrip, dropWhile_fix _ _ hh, dropTrail_fix _ _ hl]

theorem normWsL_props (l : List Char) :
    goodH (normWsL l) ∧ goodN (normWsL l) ∧ '\r' ∉ normWsL l ∧
    (∀ m, (normWsL l).head? = some m → isPyWS m = false) ∧
    (∀ m, (normWsL l).getLast? = some m → isPyWS m = false) := by
  refine ⟨?_, ?_, ?_, ?_, ?_⟩
  · exact goodH_pyStrip _ (collapseNLGo_goodH _ 0 (collapseHWSGo_goodH _ false))
  · exact goodN_pyStrip _ (collapseNLGo_goodN _).1
  · intro hm
    have h3 := pyStrip_subset _ _ hm
    rcases collapseNLGo_mem _ 0 '\r' h3 with h1 | h1
    · exact absurd h1 (by decide)
    rcases collapseHWSGo_mem _ false '\r' h1 with h2 | h2
    · exact absurd h2 (by decide)
    · exact replCR_noCR _ h2
  · exact fun m hm => pyStrip_head _ m hm
  · exact fun m hm => pyStrip_last _ m hm

theorem normWsL_idem (l : List Char) : normWsL (normWsL l) = normWsL l := by
  obtain ⟨hH, hN, hCR, hh, hl⟩ := normWsL_props l
  conv_lhs => rw [normWsL]
  rw [replCRLF_fix _ hCR, replCR_fix _ hCR]
  rw [show collapseHWS (normWsL l) = normWsL l from collapseHWSGo_fix _ hH]
  rw [show collapseNL (normWsL l) = normWsL l from collapseNLGo_fix0 _ hN]
  exact pyStrip_fix _ hh hl

/-- **C7**: the text normalizer is idempotent:
`normalize_ws (normalize_ws x) = normalize_ws x` for every string `x`. -/
theorem normalize_ws_idempotent (x : String) :
    normalize_ws (normalize_ws x) = normalize_ws x :=
  congrArg String.mk (normWsL_idem x.data)

/-- **C10**: `chunk_text` normalizes its input before chunking, so chunking a
raw string and chunking its normalized form give identical results (and the
chunks therefore cover the normalized text, per C1). -/
theorem chunk_text_normalizes_input (s : String) (C O : Nat) (hC : 0 < C) (hO : O < C) :
    chunk_text s C O = chunk_text (normalize_ws s) C O := by
  show (chunkTextL s.data C O).map _ = (chunkTextL (normWsL s.data) C O).map _
  have h : chunkTextL (normWsL s.data) C O = chunkTextL s.data C O := by
    show chunkGo (normWsL (normWsL s.data)) C O (normWsL (normWsL s.data)).length 0 =
      chunkGo (normWsL s.data) C O (normWsL s.data).length 0
    rw [normWsL_idem]
  rw [h]

/-- Witness for C10 at `s = " a\tb "`, `C = 2`, `O = 1`. -/
theorem chunk_text_normalizes_input_witness :
    0 < 2 ∧ (1 : Nat) < 2 ∧
    chunk_text " a\tb " 2 1 = chunk_text (normalize_ws " a\tb ") 2 1 :=
  ⟨by decide, by decide, chunk_text_normalizes_input " a\tb " 2 1 (by decide) (by decide)⟩

/-! ## Embedding client (`OllamaEmbedder.embed`, source lines 129-136) -/

/-- The epsilon `1e-12` added to the norm in `OllamaEmbedder.embed`. -/
def embEps : ℚ := 1 / 10 ^ 12

/-- One embedding vector scaled as in the source, `v / (np.linalg.norm(v) + 1e-12)`,
with the Euclidean norm of `v` passed explicitly as `nrm` (exact square roots
leave ℚ; callers constrain it by `0 ≤ nrm` and `nrm² = normSq v`).  Exact
rational arithmetic stands in for numpy float32. -/
def embedScale (nrm : ℚ) (v : List ℚ) : List ℚ := v.map (fun x => x / (nrm + embEps))

/-- Squared Euclidean norm of a vector. -/
def normSq (v : List ℚ) : ℚ := (v.map (fun x => x * x)).sum

/-- `OllamaEmbedder.embed`: one `ollama.embeddings` call per text, in input
order (`resp` abstracts the external service, `nrm` abstracts
`np.linalg.norm`); each raw vector is divided by its norm plus epsilon and
the results are stacked in the same order (`np.vstack`). -/
def embed (resp : String → List ℚ) (nrm : List ℚ → ℚ) (texts : List String) :
    List (List ℚ) :=
  texts.map (fun t => embedScale (nrm (resp t)) (resp t))

theorem normSq_scale (k : ℚ) (v : List ℚ) (hk : k ≠ 0) :
    normSq (v.map (fun x => x / k)) = normSq v / k ^ 2 := by
  induction v with
  | nil => simp [normSq]
  | cons x xs ih =>
    simp only [List.map_cons, normSq, List.sum_cons] at ih ⊢
    rw [ih]
    field_simp
    ring

/-- **C8** counterexample: the nonzero raw vector `[1e-12]`, whose exact
Euclidean norm is `1e-12`, is scaled by `OllamaEmbedder.embed` to `[1/2]`,
whose squared norm is `1/4` — nowhere near 1.  An exact-zero raw vector is
not the only exception to the claimed unit-norm property. -/
theorem embed_norm_counterexample :
    (1 / 10 ^ 12 : ℚ) ≠ 0 ∧
    (0 : ℚ) ≤ 1 / 10 ^ 12 ∧
    ((1 / 10 ^ 12 : ℚ)) ^ 2 = normSq [(1 : ℚ) / 10 ^ 12] ∧
    embedScale (1 / 10 ^ 12) [(1 : ℚ) / 10 ^ 12] = [1 / 2] ∧
    normSq (embedScale (1 / 10 ^ 12) [(1 : ℚ) / 10 ^ 12]) = 1 / 4 := by
  have hscale : embedScale (1 / 10 ^ 12) [(1 : ℚ) / 10 ^ 12] = [1 / 2] := by
    simp only [embedScale, embEps, List.map_cons, List.map_nil, List.cons.injEq, and_true]
    norm_num
  refine ⟨by norm_num, by norm_num, ?_, hscale, ?_⟩
  · simp only [normSq, List.map_cons, List.map_nil, List.sum_cons, List.sum_nil]
    ring
  · rw [hscale]
    simp only [normSq, List.map_cons, List.map_nil, List.sum_cons, List.sum_nil]
    norm_num

/-- **C8** (amended): `embed` returns one scaled vector per input text, in
input order; each output is the raw vector divided by its Euclidean norm
plus `ε = 1e-12`, so its squared norm satisfies
`normSq · (‖raw‖+ε)² = ‖raw‖²` (Euclidean norm `‖raw‖/(‖raw‖+ε)`), which is
within `ε` of 1 whenever `‖raw‖ ≥ 1`; a zero raw vector yields the zero
vector.  (Nonzero raw vectors with tiny norm are further exceptions, per
the counterexample.) -/
theorem embed_spec (resp : String → List ℚ) (nrm : List ℚ → ℚ) (texts : List String)
    (hn : ∀ t ∈ texts, 0 ≤ nrm (resp t) ∧ nrm (resp t) ^ 2 = normSq (resp t)) :
    (embed resp nrm texts).length = texts.length ∧
    (∀ i, ∀ h : i < texts.length, ∀ h2 : i < (embed resp nrm texts).length,
      (embed resp nrm texts).get ⟨i, h2⟩ =
        embedScale (nrm (resp (texts.get ⟨i, h⟩))) (resp (texts.get ⟨i, h⟩))) ∧
    (∀ t ∈ texts,
      normSq (embedScale (nrm (resp t)) (resp t)) * (nrm (resp t) + embEps) ^ 2 =
        nrm (resp t) ^ 2) ∧
    (∀ t ∈ texts, 1 ≤ nrm (resp t) →
      |nrm (resp t) / (nrm (resp t) + embEps) - 1| ≤ embEps) ∧
    (∀ t ∈ texts, (∀ x ∈ resp t, x = 0) →
      ∀ y ∈ embedScale (nrm (resp t)) (resp t), y = 0) := by
  have hεpos : (0 : ℚ) < embEps := by norm_num [embEps]
  refine ⟨List.length_map _ _, ?_, ?_, ?_, ?_⟩
  · intro i h h2
    rw [List.get_eq_getElem, List.get_eq_getElem]
    show (texts.map (fun t => embedScale (nrm (resp t)) (resp t)))[i] = _
    rw [List.getElem_map]
  · intro t ht
    have hpos : 0 < nrm (resp t) + embEps := by
      have := (hn t ht).1
      linarith
    rw [embedScale, normSq_scale _ _ (ne_of_gt hpos), (hn t ht).2.symm]
    field_simp
  · intro t ht h1
    have hpos : 0 < nrm (resp t) + embEps := by linarith
    have heq : nrm (resp t) / (nrm (resp t) + embEps) - 1 =
        -(embEps / (nrm (resp t) + embEps)) := by
      field_simp
    rw [heq, abs_neg, abs_of_nonneg (by positivity)]
    rw [div_le_iff hpos]
    nlinarith
  · intro t ht hzero y hy
    rw [embedScale] at hy
    obtain ⟨x, hx, hxy⟩ := List.mem_map.mp hy
    rw [← hxy, hzero x hx, zero_div]

/-- Witness for the amended C8 at one text whose raw vector is `[1]`. -/
theorem embed_spec_witness :
    (0 ≤ (1 : ℚ) ∧ (1 : ℚ) ^ 2 = normSq [(1 : ℚ)]) ∧
    (embed (fun _ => [(1 : ℚ)]) (fun _ => 1) ["a"]).length = ["a"].length :=
  ⟨⟨by simp, by simp [normSq]⟩,
    (embed_spec (fun _ => [(1 : ℚ)]) (fun _ => 1) ["a"]
      (fun t _ => ⟨by simp, by simp [normSq]⟩)).1⟩

/-! ## Query fallback (`RAGPipeline.query`, source lines 406-412) -/

/-- Evaluate `g` left to right over a list, failing as a whole if any
element fails (models a Python exception aborting a comprehension/loop). -/
def optMap {α β : Type} (g : α → Option β) : List α → Option (List β)
  | [] => some []
  | a :: l =>
    match g a, optMap g l with
    | some b, some bs => some (b :: bs)
    | _, _ => none

theorem optMap_some {α β : Type} (g : α → Option β) :
    ∀ l : List α, (∀ a ∈ l, (g a).isSome) →
      ∃ bs, optMap g l = some bs ∧ bs.length = l.length
  | [], _ => ⟨[], rfl, rfl⟩
  | a :: l, h => by
    obtain ⟨b, hb⟩ := Option.isSome_iff_exists.mp (h a (List.mem_cons_self _ _))
    obtain ⟨bs, hbs, hlen⟩ :=
      optMap_some g l (fun x hx => h x (List.mem_cons_of_mem _ hx))
    exact ⟨b :: bs, by rw [optMap, hb, hbs], by simp [hlen]⟩

/-- The literal fallback answer in `RAGPipeline.query`. -/
def fallbackAnswer : String := "I don't know (not in RAG folder)."

/-- `RAGPipeline.query` after the index search returned indices `idxs`:
`contexts = [self.meta[i] for i in idxs if i >= 0]`; with no surviving
context the literal fallback is returned without calling the answer
client, otherwise `answer` (abstracting `OllamaQA.answer`) is invoked on
the contexts.  `none` models a Python `IndexError` from `self.meta[i]`. -/
def queryRun {α : Type} (meta : List α) (idxs : List Int)
    (answer : List α → String) : Option String :=
  match optMap (fun i => meta[i.toNat]?) (idxs.filter (fun i => decide (0 ≤ i))) with
  | none => none
  | some [] => some fallbackAnswer
  | some contexts => some (answer contexts)

/-- **C4**: when the index search yields zero valid (non-negative) indices,
`query` returns exactly the string "I don't know (not in RAG folder)." for
every possible answer client — i.e. without invoking it; otherwise (with
the valid indices in range of the metadata list, as the vector store
guarantees) it returns the answer client's response on the non-empty
context list. -/
theorem query_fallback_spec {α : Type} (meta : List α) (idxs : List Int) :
    ((∀ i ∈ idxs, i < 0) → ∀ answer, queryRun meta idxs answer = some fallbackAnswer) ∧
    ((∃ i ∈ idxs, 0 ≤ i) → (∀ i ∈ idxs, 0 ≤ i → i.toNat < meta.length) →
      ∀ answer, ∃ contexts, contexts ≠ [] ∧
        queryRun meta idxs answer = some (answer contexts)) := by
  constructor
  · intro hneg answer
    have hfilter : idxs.filter (fun i => decide (0 ≤ i)) = [] := by
      rw [List.filter_eq_nil]
      intro a ha
      simp only [decide_eq_true_eq]
      have := hneg a ha
      omega
    rw [queryRun, hfilter]
    rfl
  · intro hex hrange answer
    have hne : idxs.filter (fun i => decide (0 ≤ i)) ≠ [] := by
      obtain ⟨i, hi, hpos⟩ := hex
      intro hnil
      have hmem : i ∈ idxs.filter (fun i => decide (0 ≤ i)) :=
        List.mem_filter.mpr ⟨hi, by simpa using hpos⟩
      rw [hnil] at hmem
      simp at hmem
    obtain ⟨contexts, hmap, hlen⟩ :=
      optMap_some (fun i => meta[i.toNat]?) (idxs.filter (fun i => decide (0 ≤ i)))
        (fun i hi => by
          have hm := List.mem_filter.mp hi
          have h0 : (0 : Int) ≤ i := by simpa using hm.2
          have hr := hrange i hm.1 h0
          simp [List.getElem?_eq_getElem hr])
    refine ⟨contexts, ?_, ?_⟩
    · intro hcnil
      rw [hcnil] at hlen
      exact hne (List.eq_nil_of_length_eq_zero hlen.symm)
    · have hcne : contexts ≠ [] := by
        intro hcnil
        rw [hcnil] at hlen
        exact hne (List.eq_nil_of_length_eq_zero hlen.symm)
      rw [queryRun, hmap]
      cases contexts with
      | nil => exact absurd rfl hcne
      | cons c cs => rfl

/-- Witness for C4: the fallback branch on indices `[-1]` and the answer
branch on indices `[0]` over a one-element metadata list. -/
theorem query_fallback_spec_witness :
    queryRun ([42] : List Nat) [-1] (fun _ => "ctx") = some fallbackAnswer ∧
    ∃ contexts : List Nat, contexts ≠ [] ∧
      queryRun ([42] : List Nat) [0] (fun _ => "ctx") =
        some ((fun _ : List Nat => "ctx") contexts) :=
  ⟨(query_fallback_spec [42] [-1]).1 (by decide) (fun _ => "ctx"),
    (query_fallback_spec [42] [0]).2 ⟨0, by decide, by decide⟩ (by decide)
      (fun _ : List Nat => "ctx")⟩

/-! ## Citation tags and ingestion metadata (`RAGPipeline.ingest_folder`,
source lines 237-395) -/

/-- Decimal digit character. -/
def digitChar : Nat → Char
  | 0 => '0' | 1 => '1' | 2 => '2' | 3 => '3' | 4 => '4'
  | 5 => '5' | 6 => '6' | 7 => '7' | 8 => '8' | _ => '9'

/-- Decimal digits of `n`, most significant first, with fuel (the value
shrinks by a factor of ten per step, so `n + 1` steps always suffice). -/
def natDigitsGo : Nat → Nat → List Char
  | 0, _ => []
  | fuel + 1, n =>
    if n < 10 then [digitChar n]
    else natDigitsGo fuel (n / 10) ++ [digitChar (n % 10)]

def natDigits (n : Nat) : List Char := natDigitsGo (n + 1) n

/-- Python `f"{n:03d}"`: decimal digits left-padded with zeros to width 3. -/
def pad3 (n : Nat) : List Char :=
  List.replicate (3 - (natDigits n).length) '0' ++ natDigits n

/-- Decimal value of a digit string (used to invert `pad3`). -/
def parseNat (l : List Char) : Nat := l.foldl (fun acc c => acc * 10 + (c.toNat - 48)) 0

theorem natDigitsGo_fuel (n : Nat) : ∀ (f1 f2 : Nat), n < f1 → n < f2 →
    natDigitsGo f1 n = natDigitsGo f2 n := by
  induction n using Nat.strong_induction_on with
  | _ n ih =>
    intro f1 f2 h1 h2
    obtain ⟨g1, rfl⟩ : ∃ k, f1 = k + 1 := ⟨f1 - 1, by omega⟩
    obtain ⟨g2, rfl⟩ : ∃ k, f2 = k + 1 := ⟨f2 - 1, by omega⟩
    by_cases hn : n < 10
    · simp [natDigitsGo, hn]
    · have hdiv : n / 10 < n := Nat.div_lt_self (by omega) (by omega)
      simp only [natDigitsGo, hn, if_false]
      rw [ih (n / 10) hdiv g1 g2 (by omega) (by omega)]

theorem natDigits_eq (n : Nat) : natDigits n =
    if n < 10 then [digitChar n] else natDigits (n / 10) ++ [digitChar (n % 10)] := by
  rw [natDigits, natDigitsGo]
  by_cases hn : n < 10
  · simp [hn]
  · have hdiv : n / 10 < n := Nat.div_lt_self (by omega) (by omega)
    simp only [hn, if_false]
    rw [natDigitsGo_fuel (n / 10) n (n / 10 + 1) hdiv (by omega)]
    rfl

theorem digitChar_toNat (m : Nat) (h : m < 10) : (digitChar m).toNat - 48 = m := by
  interval_cases m <;> rfl

theorem digitChar_isDigit (m : Nat) (h : m < 10) : (digitChar m).isDigit = true := by
  interval_cases m <;> rfl

theorem parseNat_go (n : Nat) : ∀ acc : Nat,
    List.foldl (fun a c => a * 10 + (c.toNat - 48)) acc (natDigits n) =
      acc * 10 ^ (natDigits n).length + n := by
  induction n using Nat.strong_induction_on with
  | _ n ih =>
    intro acc
    rw [natDigits_eq n]
    by_cases hn : n < 10
    · simp [hn, digitChar_toNat n hn]
    · have hdiv : n / 10 < n := Nat.div_lt_self (by omega) (by omega)
      simp only [hn, if_false, List.foldl_append, List.foldl_cons, List.foldl_nil,
        List.length_append, List.length_cons, List.length_nil]
      rw [ih (n / 10) hdiv acc]
      rw [digitChar_toNat (n % 10) (Nat.mod_lt n (by omega))]
      have hdm := Nat.div_add_mod n 10
      rw [pow_succ]
      generalize (natDigits (n / 10)).length = k
      generalize hq : n / 10 = q at hdm ⊢
      generalize hr : n % 10 = r at hdm ⊢
      ring_nf
      omega

theorem natDigits_all_digits (n : Nat) : ∀ c ∈ natDigits n, c.isDigit = true := by
  induction n using Nat.strong_induction_on with
  | _ n ih =>
    intro c hc
    rw [natDigits_eq n] at hc
    by_cases hn : n < 10
    · rw [if_pos hn] at hc
      simp only [List.mem_singleton] at hc
      rw [hc]
      exact digitChar_isDigit n hn
    · have hdiv : n / 10 < n := Nat.div_lt_self (by omega) (by omega)
      rw [if_neg hn] at hc
      rcases List.mem_append.mp hc with h1 | h1
      · exact ih (n / 10) hdiv c h1
      · simp only [List.mem_singleton] at h1
        rw [h1]
        exact digitChar_isDigit (n % 10) (Nat.mod_lt n (by omega))

theorem natDigits_ne_nil (n : Nat) : natDigits n ≠ [] := by
  rw [natDigits_eq n]
  by_cases hn : n < 10 <;> simp [hn]

theorem pad3_all_digits (n : Nat) : ∀ c ∈ pad3 n, c.isDigit = true := by
  intro c hc
  rcases List.mem_append.mp hc with h1 | h1
  · rw [List.eq_of_mem_replicate h1]
    rfl
  · exact natDigits_all_digits n c h1

theorem pad3_ne_nil (n : Nat) : pad3 n ≠ [] := by
  rw [pad3]
  intro h
  rcases List.append_eq_nil.mp h with ⟨_, h2⟩
  exact natDigits_ne_nil n h2

theorem parseNat_pad3 (n : Nat) : parseNat (pad3 n) = n := by
  rw [parseNat, pad3, List.foldl_append]
  have hz : ∀ k, List.foldl (fun acc c => acc * 10 + (c.toNat - 48)) 0
      (List.replicate k '0') = 0 := by
    intro k
    induction k with
    | zero => rfl
    | succ k ihk => exact ihk
  rw [hz]
  have := parseNat_go n 0
  simpa using this

theorem pad3_inj (m n : Nat) (h : pad3 m = pad3 n) : m = n := by
  rw [← parseNat_pad3 m, ← parseNat_pad3 n, h]

/-- The suffix of each citation-tag format, after `"[file:" ++ rel`. -/
inductive TagSuffix where
  | pdfTag (page ci : Nat)
  | chunkTag (ci : Nat)
  | csvTag (row : Nat)
  | excelTag (sheet : List Char) (row : Nat)
deriving DecidableEq, Repr

def tagOpen : List Char := ['[', 'f', 'i', 'l', 'e', ':']

def suffixChars : TagSuffix → List Char
  | .pdfTag p c => ' ' :: 'p' :: (pad3 p ++ ' ' :: 'c' :: (pad3 c ++ [']']))
  | .chunkTag c => ' ' :: 'c' :: (pad3 c ++ [']'])
  | .csvTag r => ' ' :: 'r' :: 'o' :: 'w' :: (pad3 r ++ [' ', 'c', '0', '0', '0', ']'])
  | .excelTag nm r => ' ' :: 's' :: 'h' :: 'e' :: 'e' :: 't' :: ':' ::
      (nm ++ ' ' :: 'r' :: 'o' :: 'w' :: (pad3 r ++ [' ', 'c', '0', '0', '0', ']']))

/-- A citation tag (the closing `]` is part of the suffix). -/
def mkTag (rel : List Char) (s : TagSuffix) : List Char := tagOpen ++ rel ++ suffixChars s

/-- `f"[file:{rel} p{page:03d} c{ci:03d}]"`. -/
def mkTagPdf (rel : List Char) (page ci : Nat) : List Char := mkTag rel (.pdfTag page ci)

/-- `f"[file:{rel} c{ci:03d}]"` (image and text files). -/
def mkTagChunk (rel : List Char) (ci : Nat) : List Char := mkTag rel (.chunkTag ci)

/-- `f"[file:{rel} row{r:03d} c000]"`. -/
def mkTagCsv (rel : List Char) (row : Nat) : List Char := mkTag rel (.csvTag row)

/-- `f"[file:{rel} sheet:{sheet} row{r:03d} c000]"`. -/
def mkTagExcel (rel : List Char) (sheet : List Char) (row : Nat) : List Char :=
  mkTag rel (.excelTag sheet row)

/-- One chunk-metadata record appended to `meta` by `ingest_folder` (the
`source` field, the absolute path, is omitted — it duplicates `rel`). -/
structure MetaRec where
  rel : List Char
  ftype : List Char
  page : Option Nat
  sheet : Option (List Char)
  row : Option Nat
  chunk_id : Nat
  tag : List Char
  text : List Char
deriving DecidableEq, Repr

/-- One sheet of a workbook as `pd.read_excel(..., sheet_name=None, dtype=str)`
delivers it: name, header row (columns), and data rows of string cells. -/
structure SheetData where
  name : List Char
  cols : List (List Char)
  rows : List (List (List Char))
deriving DecidableEq, Repr

/-- Decoded file content, one constructor per extractor branch of
`ingest_folder`; `Img` abstracts decoded page/image rasters. -/
inductive FileContent (Img : Type) where
  | pdfDoc (pages : List Img)
  | imageDoc (img : Img)
  | textDoc (data : List Char)
  | csvDoc (rows : List (List (List Char)))
  | excelDoc (sheets : List SheetData)

/-- One file under the ingested folder: its folder-relative path (with `/`
separators, as `os.path.relpath(...).replace("\\", "/")` yields) and its
parsed content. -/
structure FileEntry (Img : Type) where
  rel : List Char
  content : FileContent Img

/-- `os.path.splitext(name.lower())[1]`: the lower-cased extension of the
basename — the suffix from its last dot, or empty when the basename has no
dot or only dots before the last dot. -/
def extOf (r : List Char) : List Char :=
  let rev := r.reverse
  let name := rev.takeWhile (fun c => !(c == '/'))
  let afterDot := name.takeWhile (fun c => !(c == '.'))
  if afterDot.length < name.length then
    let before := name.drop (afterDot.length + 1)
    if before.any (fun c => !(c == '.')) then
      '.' :: (afterDot.reverse.map Char.toLower)
    else []
  else []

def extsPdf : List (List Char) := [['.', 'p', 'd', 'f']]

def extsImg : List (List Char) :=
  [['.','p','n','g'], ['.','j','p','g'], ['.','j','p','e','g'], ['.','b','m','p'],
   ['.','t','i','f'], ['.','t','i','f','f'], ['.','w','e','b','p']]

def extsTxt : List (List Char) :=
  [['.','t','x','t'], ['.','m','d'], ['.','l','o','g'], ['.','j','s','o','n'],
   ['.','x','m','l'], ['.','h','t','m','l']]

def extsCsv : List (List Char) := [['.', 'c', 's', 'v']]

def extsXlsx : List (List Char) :=
  [['.','x','l','s','x'], ['.','x','l','s'], ['.','x','l','s','m']]

/-- Membership of the extension in the union of the five supported sets. -/
def supportedExt (e : List Char) : Bool :=
  decide (e ∈ extsPdf) || decide (e ∈ extsImg) || decide (e ∈ extsTxt) ||
  decide (e ∈ extsCsv) || decide (e ∈ extsXlsx)

/-- Python `" | ".join`. -/
def joinBar (cells : List (List Char)) : List Char :=
  List.intercalate [' ', '|', ' '] cells

def lowerL (l : List Char) : List Char := l.map Char.toLower

/-- `_format_df_row` (source lines 226-235): keep `col=value` for cells
whose stripped value is non-empty and not "nan"/"none" (case-insensitive),
join with `" | "`, strip the result. -/
def formatDfRow (cols : List (List Char)) (vals : List (List Char)) : List Char :=
  pyStrip (joinBar ((cols.zip vals).filterMap (fun cv =>
    let s := pyStrip cv.2
    if s = [] ∨ lowerL s = ['n','a','n'] ∨ lowerL s = ['n','o','n','e'] then none
    else some (cv.1 ++ '=' :: s))))

/-- Column normalization in the Excel branch: strip each column name,
replace empty names by `col{j}`. -/
def normalizeCols (cols : List (List Char)) : List (List Char) :=
  cols.enum.map (fun jc =>
    let s := pyStrip jc.2
    if s = [] then ['c','o','l'] ++ natDigits jc.1 else s)

/-- Records for one chunked text body (a pdf page, an image, or a text
file): chunk `ci` gets tag `mkT ci` and `chunk_id = ci`. -/
def chunkRecs (rel ftype : List Char) (page : Option Nat) (mkT : Nat → List Char)
    (txt : List Char) (C O : Nat) : Option (List MetaRec) :=
  (chunkTextL txt C O).map (fun cs =>
    cs.enum.map (fun ic =>
      { rel := rel, ftype := ftype, page := page, sheet := none, row := none,
        chunk_id := ic.1, tag := mkT ic.1, text := ic.2 }))

/-- The text of one CSV row: cells stripped, joined with `" | "`. -/
def csvLine (row : List (List Char)) : List Char := joinBar (row.map pyStrip)

/-- The CSV branch (source lines 321-337): cells stripped and joined with
`" | "`; blank lines skipped but still counted by the row index. -/
def csvRecs (rel : List Char) (rows : List (List (List Char))) : List MetaRec :=
  rows.enum.filterMap (fun rr =>
    if pyStrip (csvLine rr.2) = [] then none
    else some { rel := rel, ftype := ['c','s','v'], page := none, sheet := none,
                row := some rr.1, chunk_id := 0, tag := mkTagCsv rel rr.1,
                text := csvLine rr.2 })

/-- One sheet of the Excel branch: empty frames skipped (`df.empty`); rows
rendered by `_format_df_row`, blank renderings skipped but counted. -/
def excelSheetRecs (rel : List Char) (sd : SheetData) : List MetaRec :=
  if sd.rows = [] ∨ sd.cols = [] then []
  else
    sd.rows.enum.filterMap (fun rr =>
      if pyStrip (formatDfRow (normalizeCols sd.cols) rr.2) = [] then none
      else some { rel := rel, ftype := ['e','x','c','e','l'], page := none,
                  sheet := some sd.name, row := some rr.1, chunk_id := 0,
                  tag := mkTagExcel rel sd.name rr.1,
                  text := formatDfRow (normalizeCols sd.cols) rr.2 })

/-- The Excel branch (source lines 340-374): all sheets in order. -/
def excelRecs (rel : List Char) (sheets : List SheetData) : List MetaRec :=
  (sheets.map (excelSheetRecs rel)).flatten

/-- Process one file of the ingestion loop, dispatching on the lower-cased
extension exactly as the source does.  `none` models either a mismatch
between extension and actual content (impossible for on-disk files) or a
non-terminating chunker.  `ocr` abstracts the raw OCR-model output (which
`ocr_image` then normalizes). -/
def processFile {Img : Type} (ocr : Img → List Char) (C O : Nat)
    (f : FileEntry Img) : Option (List MetaRec) :=
  let ext := extOf f.rel
  if decide (ext ∈ extsPdf) then
    match f.content with
    | .pdfDoc pages =>
      (optMap (fun ip =>
          chunkRecs f.rel ['p','d','f'] (some (ip.1 + 1))
            (fun ci => mkTagPdf f.rel (ip.1 + 1) ci) (normWsL (ocr ip.2)) C O)
        pages.enum).map List.flatten
    | _ => none
  else if decide (ext ∈ extsImg) then
    match f.content with
    | .imageDoc img =>
      chunkRecs f.rel ['i','m','a','g','e'] none (fun ci => mkTagChunk f.rel ci)
        (normWsL (ocr img)) C O
    | _ => none
  else if decide (ext ∈ extsTxt) then
    match f.content with
    | .textDoc d =>
      chunkRecs f.rel ['t','e','x','t'] none (fun ci => mkTagChunk f.rel ci)
        (normWsL d) C O
    | _ => none
  else if decide (ext ∈ extsCsv) then
    match f.content with
    | .csvDoc rows => some (csvRecs f.rel rows)
    | _ => none
  else if decide (ext ∈ extsXlsx) then
    match f.content with
    | .excelDoc sheets => some (excelRecs f.rel sheets)
    | _ => none
  else none

inductive IngestErr where
  | noSupportedFiles
  | noChunks
deriving DecidableEq, Repr

/-- The three storage artifacts a successful run writes. -/
inductive Artifact where
  | vecIndex
  | metaFile
  | manifest
deriving DecidableEq, Repr

/-- `RAGPipeline.ingest_folder` over the folder's walked file list: filter
to supported extensions; raise (`error`, nothing written) when none remain;
process every file in order, collecting chunks and metadata; raise (nothing
written) when no chunk was extracted; otherwise embed (abstracted — the
metadata does not depend on it) and write the three artifacts.  The second
component records which storage artifacts were written. -/
def ingestFolder {Img : Type} (ocr : Img → List Char) (C O : Nat)
    (allFiles : List (FileEntry Img)) :
    Option ((Except IngestErr (List MetaRec)) × List Artifact) :=
  let files := allFiles.filter (fun f => supportedExt (extOf f.rel))
  if files.isEmpty then some (.error .noSupportedFiles, [])
  else
    match optMap (processFile ocr C O) files with
    | none => none
    | some recss =>
      let meta := recss.flatten
      if meta.isEmpty then some (.error .noChunks, [])
      else some (.ok meta, [.vecIndex, .metaFile, .manifest])

/-- **C5**: an existing folder whose file listing contains zero files with
a supported extension makes `ingest_folder` fail with the input error
`noSupportedFiles`, writing none of the three storage artifacts (vector
index, metadata, manifest): the on-disk store is left unchanged. -/
theorem ingest_no_supported_files {Img : Type} (ocr : Img → List Char) (C O : Nat)
    (allFiles : List (FileEntry Img))
    (h : ∀ f ∈ allFiles, supportedExt (extOf f.rel) = false) :
    ingestFolder ocr C O allFiles = some (.error .noSupportedFiles, []) := by
  have hf : allFiles.filter (fun f => supportedExt (extOf f.rel)) = [] := by
    rw [List.filter_eq_nil]
    intro a ha
    simp [h a ha]
  unfold ingestFolder
  rw [hf]
  rfl

/-- Witness for C5: a folder containing only `a.zip`. -/
theorem ingest_no_supported_files_witness :
    ingestFolder (fun _ : Unit => ([] : List Char)) 1200 200
      [⟨['a', '.', 'z', 'i', 'p'], .textDoc []⟩] =
      some (.error .noSupportedFiles, []) :=
  ingest_no_supported_files _ 1200 200 _ (by decide)

/-- **C9**: a folder holding exactly one CSV file whose parsed rows are
`a,b` and `1,2` ingests to exactly two metadata records, with citation tags
`[file:<rel> row000 c000]` and `[file:<rel> row001 c000]` and texts
`"a | b"` and `"1 | 2"` (cells stripped, joined with `" | "`; blank rows
would be skipped by the same branch). -/
theorem ingest_csv_two_rows {Img : Type} (ocr : Img → List Char) (C O : Nat)
    (rel : List Char) (hext : extOf rel = ['.', 'c', 's', 'v']) :
    ingestFolder ocr C O [⟨rel, .csvDoc [[['a'], ['b']], [['1'], ['2']]]⟩] =
      some (.ok
        [{ rel := rel, ftype := ['c','s','v'], page := none, sheet := none,
           row := some 0, chunk_id := 0, tag := mkTagCsv rel 0,
           text := ['a', ' ', '|', ' ', 'b'] },
         { rel := rel, ftype := ['c','s','v'], page := none, sheet := none,
           row := some 1, chunk_id := 0, tag := mkTagCsv rel 1,
           text := ['1', ' ', '|', ' ', '2'] }],
        [.vecIndex, .metaFile, .manifest]) := by
  have hsupp : supportedExt (extOf rel) = true := by rw [hext]; decide
  have h1 : (decide ((['.','c','s','v'] : List Char) ∈ extsPdf)) = false := by decide
  have h2 : (decide ((['.','c','s','v'] : List Char) ∈ extsImg)) = false := by decide
  have h3 : (decide ((['.','c','s','v'] : List Char) ∈ extsTxt)) = false := by decide
  have h4 : (decide ((['.','c','s','v'] : List Char) ∈ extsCsv)) = true := by decide
  have hproc : processFile ocr C O
      (⟨rel, .csvDoc [[['a'], ['b']], [['1'], ['2']]]⟩ : FileEntry Img) =
      some (csvRecs rel [[['a'], ['b']], [['1'], ['2']]]) := by
    unfold processFile
    simp only [hext, h1, h2, h3, h4, Bool.false_eq_true, if_false, if_true]
  have hrecs : csvRecs rel [[['a'], ['b']], [['1'], ['2']]] =
      [{ rel := rel, ftype := ['c','s','v'], page := none, sheet := none,
         row := some 0, chunk_id := 0, tag := mkTagCsv rel 0,
         text := ['a', ' ', '|', ' ', 'b'] },
       { rel := rel, ftype := ['c','s','v'], page := none, sheet := none,
         row := some 1, chunk_id := 0, tag := mkTagCsv rel 1,
         text := ['1', ' ', '|', ' ', '2'] }] := rfl
  unfold ingestFolder
  simp only [List.filter_cons, List.filter_nil, hsupp, if_true, List.isEmpty_cons]
  rw [show optMap (processFile ocr C O)
      [(⟨rel, .csvDoc [[['a'], ['b']], [['1'], ['2']]]⟩ : FileEntry Img)] =
      some [csvRecs rel [[['a'], ['b']], [['1'], ['2']]]] by
    unfold optMap
    rw [hproc]
    rfl]
  rw [hrecs]
  rfl

/-- Witness for C9 at `rel = "d.csv"`. -/
theorem ingest_csv_two_rows_witness :
    ingestFolder (fun _ : Unit => ([] : List Char)) 1200 200
      [⟨['d','.','c','s','v'], .csvDoc [[['a'], ['b']], [['1'], ['2']]]⟩] =
      some (.ok
        [{ rel := ['d','.','c','s','v'], ftype := ['c','s','v'], page := none,
           sheet := none, row := some 0, chunk_id := 0,
           tag := mkTagCsv ['d','.','c','s','v'] 0,
           text := ['a', ' ', '|', ' ', 'b'] },
         { rel := ['d','.','c','s','v'], ftype := ['c','s','v'], page := none,
           sheet := none, row := some 1, chunk_id := 0,
           tag := mkTagCsv ['d','.','c','s','v'] 1,
           text := ['1', ' ', '|', ' ', '2'] }],
        [.vecIndex, .metaFile, .manifest]) :=
  ingest_csv_two_rows (fun _ => []) 1200 200 ['d','.','c','s','v'] (by decide)

deriving instance DecidableEq for Except

/-- **C3** counterexample: one ingestion run over two files — a workbook
`f.xlsx` containing a single sheet named `A.csv` with one row, and a CSV
file literally named `f.xlsx sheet:A.csv` (a legal POSIX filename) with one
row — produces two metadata records carrying the SAME citation tag
`[file:f.xlsx sheet:A.csv row000 c000]`: tags are not unique within a run. -/
theorem citation_tag_collision :
    ingestFolder (fun _ : Unit => ([] : List Char)) 1200 200
      [⟨['f','.','x','l','s','x'],
        .excelDoc [⟨['A','.','c','s','v'], [['h']], [[['v']]]⟩]⟩,
       ⟨['f','.','x','l','s','x',' ','s','h','e','e','t',':','A','.','c','s','v'],
        .csvDoc [[['x']]]⟩] =
      some (.ok
        [{ rel := ['f','.','x','l','s','x'], ftype := ['e','x','c','e','l'],
           page := none, sheet := some ['A','.','c','s','v'], row := some 0,
           chunk_id := 0,
           tag := mkTagExcel ['f','.','x','l','s','x'] ['A','.','c','s','v'] 0,
           text := ['h','=','v'] },
         { rel := ['f','.','x','l','s','x',' ','s','h','e','e','t',':','A','.','c','s','v'],
           ftype := ['c','s','v'], page := none, sheet := none, row := some 0,
           chunk_id := 0,
           tag := mkTagCsv
             ['f','.','x','l','s','x',' ','s','h','e','e','t',':','A','.','c','s','v'] 0,
           text := ['x'] }],
        [.vecIndex, .metaFile, .manifest]) ∧
    mkTagExcel ['f','.','x','l','s','x'] ['A','.','c','s','v'] 0 =
      mkTagCsv ['f','.','x','l','s','x',' ','s','h','e','e','t',':','A','.','c','s','v'] 0 ∧
    ¬ (([{ rel := ['f','.','x','l','s','x'], ftype := ['e','x','c','e','l'],
           page := none, sheet := some ['A','.','c','s','v'], row := some 0,
           chunk_id := 0,
           tag := mkTagExcel ['f','.','x','l','s','x'] ['A','.','c','s','v'] 0,
           text := ['h','=','v'] },
         { rel := ['f','.','x','l','s','x',' ','s','h','e','e','t',':','A','.','c','s','v'],
           ftype := ['c','s','v'], page := none, sheet := none, row := some 0,
           chunk_id := 0,
           tag := mkTagCsv
             ['f','.','x','l','s','x',' ','s','h','e','e','t',':','A','.','c','s','v'] 0,
           text := ['x'] }] : List MetaRec).map MetaRec.tag).Nodup :=
  ⟨by decide, by decide, by decide⟩

/-! ## Uniqueness of citation tags within one run (C3, amended) -/

def sheetMarker : List Char := [' ', 's', 'h', 'e', 'e', 't', ':']

/-- `pat` occurs as a contiguous subsequence of `l`. -/
def containsSeq (pat l : List Char) : Bool := l.tails.any (fun t => pat.isPrefixOf t)

theorem isPrefixOf_append_self (p y : List Char) : p.isPrefixOf (p ++ y) = true := by
  induction p with
  | nil => simp [List.isPrefixOf]
  | cons a p ih => simp [List.isPrefixOf, ih]

theorem containsSeq_append_mid (pat x y : List Char) :
    containsSeq pat (x ++ (pat ++ y)) = true := by
  rw [containsSeq, List.any_eq_true]
  exact ⟨pat ++ y, (List.mem_tails _ _).mpr ⟨x, rfl⟩, isPrefixOf_append_self pat y⟩

/-- Two decompositions of the same list at a boundary character that a
character class excludes, with the class holding before it, coincide. -/
theorem splitAtBoundary (p : Char → Bool) :
    ∀ (a1 a2 t1 t2 : List Char) (b1 b2 : Char),
      (∀ c ∈ a1, p c = true) → (∀ c ∈ a2, p c = true) →
      p b1 = false → p b2 = false →
      a1 ++ b1 :: t1 = a2 ++ b2 :: t2 → a1 = a2 ∧ b1 = b2 ∧ t1 = t2 := by
  intro a1
  induction a1 with
  | nil =>
    intro a2 t1 t2 b1 b2 h1 h2 hb1 hb2 h
    cases a2 with
    | nil =>
      simp only [List.nil_append] at h
      injection h with hh ht
      exact ⟨rfl, hh, ht⟩
    | cons y a2' =>
      simp only [List.nil_append, List.cons_append] at h
      injection h with hh _
      rw [hh] at hb1
      rw [h2 y (List.mem_cons_self _ _)] at hb1
      exact absurd hb1 (by simp)
  | cons x a1' ih =>
    intro a2 t1 t2 b1 b2 h1 h2 hb1 hb2 h
    cases a2 with
    | nil =>
      simp only [List.cons_append, List.nil_append] at h
      injection h with hh _
      rw [← hh] at hb2
      rw [h1 x (List.mem_cons_self _ _)] at hb2
      exact absurd hb2 (by simp)
    | cons y a2' =>
      simp only [List.cons_append] at h
      injection h with hxy ht
      obtain ⟨e1, e2, e3⟩ := ih a2' t1 t2 b1 b2
        (fun c hc => h1 c (List.mem_cons_of_mem _ hc))
        (fun c hc => h2 c (List.mem_cons_of_mem _ hc)) hb1 hb2 ht
      exact ⟨by rw [hxy, e1], e2, e3⟩

/-- If a space-free block precedes a space, any other decomposition of the
list at a space either coincides or extends past that first space. -/
theorem firstSpace : ∀ (x1 y1 x2 y2 : List Char),
    (∀ c ∈ x1, ¬ c = ' ') → x1 ++ ' ' :: y1 = x2 ++ ' ' :: y2 →
    (x1 = x2 ∧ y1 = y2) ∨ ∃ w, x2 = x1 ++ ' ' :: w ∧ y1 = w ++ ' ' :: y2 := by
  intro x1
  induction x1 with
  | nil =>
    intro y1 x2 y2 _ h
    cases x2 with
    | nil =>
      injection h with _ ht
      exact Or.inl ⟨rfl, ht⟩
    | cons c x2' =>
      simp only [List.nil_append, List.cons_append] at h
      injection h with hc ht
      exact Or.inr ⟨x2', by rw [← hc]; rfl, ht⟩
  | cons a x1' ih =>
    intro y1 x2 y2 hno h
    cases x2 with
    | nil =>
      simp only [List.cons_append, List.nil_append] at h
      injection h with ha _
      exact absurd ha (hno a (List.mem_cons_self _ _))
    | cons b x2' =>
      simp only [List.cons_append] at h
      injection h with hab ht
      rcases ih y1 x2' y2 (fun c hc => hno c (List.mem_cons_of_mem _ hc)) ht with
        ⟨e1, e2⟩ | ⟨w, e1, e2⟩
      · exact Or.inl ⟨by rw [hab, e1], e2⟩
      · refine Or.inr ⟨w, ?_, e2⟩
        rw [List.cons_append, ← hab, e1]

theorem pad3_no_space (n : Nat) : ∀ c ∈ pad3 n, ¬ c = ' ' := by
  intro c hc he
  have hd := pad3_all_digits n c hc
  rw [he] at hd
  exact absurd hd (by decide)

theorem suffixChars_head (s : TagSuffix) : ∃ t, suffixChars s = ' ' :: t := by
  cases s <;> exact ⟨_, rfl⟩

theorem pad3_getLast (n : Nat) : ∃ c, (pad3 n).getLast? = some c ∧ c.isDigit = true := by
  rw [pad3, List.getLast?_append_of_ne_nil _ (natDigits_ne_nil n)]
  rw [natDigits_eq n]
  by_cases hn : n < 10
  · exact ⟨digitChar n, by simp [hn], digitChar_isDigit n hn⟩
  · refine ⟨digitChar (n % 10), ?_, digitChar_isDigit _ (Nat.mod_lt n (by omega))⟩
    simp [hn, List.getLast?_concat]

theorem row_block_no_space (r : Nat) : ∀ c ∈ 'r' :: 'o' :: 'w' :: pad3 r, ¬ c = ' ' := by
  intro c hc
  rcases List.mem_cons.mp hc with rfl | hc
  · decide
  rcases List.mem_cons.mp hc with rfl | hc
  · decide
  rcases List.mem_cons.mp hc with rfl | hc
  · decide
  exact pad3_no_space r c hc

theorem excel_body_no_ext (k : List Char) (r1 r2 : Nat)
    (h : ' ' :: 'r' :: 'o' :: 'w' :: (pad3 r1 ++ [' ', 'c', '0', '0', '0', ']']) =
         k ++ ' ' :: 'r' :: 'o' :: 'w' :: (pad3 r2 ++ [' ', 'c', '0', '0', '0', ']'])) :
    k = [] := by
  cases k with
  | nil => rfl
  | cons kc k' =>
    exfalso
    simp only [List.cons_append] at h
    injection h with h1 h2
    have h2' : ('r' :: 'o' :: 'w' :: pad3 r1) ++ ' ' :: ['c', '0', '0', '0', ']'] =
        k' ++ ' ' :: ('r' :: 'o' :: 'w' :: (pad3 r2 ++ [' ', 'c', '0', '0', '0', ']'])) := by
      simpa using h2
    rcases firstSpace ('r' :: 'o' :: 'w' :: pad3 r1) ['c', '0', '0', '0', ']'] k' _
      (row_block_no_space r1) h2' with ⟨e1, e2⟩ | ⟨w, e1, e2⟩
    · exact absurd e2 (by simp)
    · have hsp : ' ' ∈ (['c', '0', '0', '0', ']'] : List Char) := by
        rw [e2]
        exact List.mem_append_right _ (List.mem_cons_self _ _)
      simp at hsp

theorem excel_body_eq (nm1 nm2 : List Char) (r1 r2 : Nat)
    (h : nm1 ++ ' ' :: 'r' :: 'o' :: 'w' :: (pad3 r1 ++ [' ', 'c', '0', '0', '0', ']']) =
         nm2 ++ ' ' :: 'r' :: 'o' :: 'w' :: (pad3 r2 ++ [' ', 'c', '0', '0', '0', ']'])) :
    nm1 = nm2 ∧ r1 = r2 := by
  have hnm : nm1 = nm2 := by
    rcases List.append_eq_append_iff.mp h with ⟨k, hk1, hk2⟩ | ⟨k, hk1, hk2⟩
    · rw [excel_body_no_ext k r1 r2 hk2] at hk1
      rw [hk1, List.append_nil]
    · rw [excel_body_no_ext k r2 r1 hk2] at hk1
      rw [hk1, List.append_nil]
  refine ⟨hnm, ?_⟩
  rw [hnm] at h
  have hB := List.append_cancel_left h
  injection hB with _ hB
  injection hB with _ hB
  injection hB with _ hB
  injection hB with _ hB
  obtain ⟨e1, _, _⟩ := splitAtBoundary Char.isDigit (pad3 r1) (pad3 r2) _ _ ' ' ' '
    (pad3_all_digits r1) (pad3_all_digits r2) (by decide) (by decide) hB
  exact pad3_inj _ _ e1

theorem suffixChars_inj (s1 s2 : TagSuffix) (h : suffixChars s1 = suffixChars s2) :
    s1 = s2 := by
  cases s1 with
  | pdfTag p1 c1 =>
    cases s2 with
    | pdfTag p2 c2 =>
      simp only [suffixChars, List.cons.injEq, true_and] at h
      obtain ⟨e1, _, e3⟩ := splitAtBoundary Char.isDigit (pad3 p1) (pad3 p2) _ _ ' ' ' '
        (pad3_all_digits p1) (pad3_all_digits p2) (by decide) (by decide) h
      injection e3 with _ e4
      obtain ⟨e5, _, _⟩ := splitAtBoundary Char.isDigit (pad3 c1) (pad3 c2) [] [] ']' ']'
        (pad3_all_digits c1) (pad3_all_digits c2) (by decide) (by decide) e4
      rw [pad3_inj _ _ e1, pad3_inj _ _ e5]
    | chunkTag c2 =>
      simp only [suffixChars, List.cons.injEq] at h
      exact absurd h.2.1 (by decide)
    | csvTag r2 =>
      simp only [suffixChars, List.cons.injEq] at h
      exact absurd h.2.1 (by decide)
    | excelTag nm2 r2 =>
      simp only [suffixChars, List.cons.injEq] at h
      exact absurd h.2.1 (by decide)
  | chunkTag c1 =>
    cases s2 with
    | pdfTag p2 c2 =>
      simp only [suffixChars, List.cons.injEq] at h
      exact absurd h.2.1 (by decide)
    | chunkTag c2 =>
      simp only [suffixChars, List.cons.injEq, true_and] at h
      obtain ⟨e1, _, _⟩ := splitAtBoundary Char.isDigit (pad3 c1) (pad3 c2) [] [] ']' ']'
        (pad3_all_digits c1) (pad3_all_digits c2) (by decide) (by decide) h
      rw [pad3_inj _ _ e1]
    | csvTag r2 =>
      simp only [suffixChars, List.cons.injEq] at h
      exact absurd h.2.1 (by decide)
    | excelTag nm2 r2 =>
      simp only [suffixChars, List.cons.injEq] at h
      exact absurd h.2.1 (by decide)
  | csvTag r1 =>
    cases s2 with
    | pdfTag p2 c2 =>
      simp only [suffixChars, List.cons.injEq] at h
      exact absurd h.2.1 (by decide)
    | chunkTag c2 =>
      simp only [suffixChars, List.cons.injEq] at h
      exact absurd h.2.1 (by decide)
    | csvTag r2 =>
      simp only [suffixChars, List.cons.injEq, true_and] at h
      obtain ⟨e1, _, _⟩ := splitAtBoundary Char.isDigit (pad3 r1) (pad3 r2) _ _ ' ' ' '
        (pad3_all_digits r1) (pad3_all_digits r2) (by decide) (by decide) h
      rw [pad3_inj _ _ e1]
    | excelTag nm2 r2 =>
      simp only [suffixChars, List.cons.injEq] at h
      exact absurd h.2.1 (by decide)
  | excelTag nm1 r1 =>
    cases s2 with
    | pdfTag p2 c2 =>
      simp only [suffixChars, List.cons.injEq] at h
      exact absurd h.2.1 (by decide)
    | chunkTag c2 =>
      simp only [suffixChars, List.cons.injEq] at h
      exact absurd h.2.1 (by decide)
    | csvTag r2 =>
      simp only [suffixChars, List.cons.injEq] at h
      exact absurd h.2.1 (by decide)
    | excelTag nm2 r2 =>
      simp only [suffixChars, List.cons.injEq, true_and] at h
      obtain ⟨e1, e2⟩ := excel_body_eq nm1 nm2 r1 r2 h
      rw [e1, e2]

/-- The crux of tag uniqueness across files: if `rel2 = rel1 ++ m` and the
tag of `(rel1, s1)` equals the tag of `(rel2, s2)` — i.e. the suffix of
`s1` absorbs `m` — then `m = []`, provided `rel2` does not end in a digit
(paths end with their alphabetic extension) and does not contain the
`" sheet:"` marker. -/
theorem mkTag_aux (rel1 rel2 m : List Char) (s1 s2 : TagSuffix)
    (hlast2 : ∀ c, rel2.getLast? = some c → c.isDigit = false)
    (hclean2 : containsSeq sheetMarker rel2 = false)
    (hrel2 : rel2 = rel1 ++ m)
    (hm : suffixChars s1 = m ++ suffixChars s2) : m = [] := by
  by_cases hne : m = []
  · exact hne
  exfalso
  obtain ⟨t2, ht2⟩ := suffixChars_head s2
  obtain ⟨m', rfl⟩ : ∃ m', m = ' ' :: m' := by
    cases m with
    | nil => exact absurd rfl hne
    | cons mc m' =>
      obtain ⟨t1, ht1⟩ := suffixChars_head s1
      rw [ht1] at hm
      simp only [List.cons_append] at hm
      injection hm with h1 _
      exact ⟨m', by rw [← h1]⟩
  rw [ht2] at hm
  cases s1 with
  | chunkTag c =>
    simp only [suffixChars, List.cons_append] at hm
    injection hm with _ hm2
    have hsp : ' ' ∈ 'c' :: (pad3 c ++ [']']) := by
      rw [hm2]
      exact List.mem_append_right _ (List.mem_cons_self _ _)
    rcases List.mem_cons.mp hsp with he | hsp
    · exact absurd he.symm (by decide)
    rcases List.mem_append.mp hsp with hsp | hsp
    · exact pad3_no_space c _ hsp rfl
    · simp at hsp
  | pdfTag p c =>
    simp only [suffixChars, List.cons_append] at hm
    injection hm with _ hm2
    cases m' with
    | nil =>
      simp only [List.nil_append] at hm2
      injection hm2 with hbad _
      exact absurd hbad (by decide)
    | cons a2 m2 =>
      simp only [List.cons_append] at hm2
      injection hm2 with ha2 hm3
      have hm3' : pad3 p ++ ' ' :: ('c' :: (pad3 c ++ [']'])) = m2 ++ ' ' :: t2 := hm3
      rcases firstSpace (pad3 p) ('c' :: (pad3 c ++ [']'])) m2 t2
        (pad3_no_space p) hm3' with ⟨e1, e2⟩ | ⟨w, e1, e2⟩
      · obtain ⟨d, hd1, hd2⟩ := pad3_getLast p
        have hlast : rel2.getLast? = some d := by
          rw [hrel2, List.getLast?_append_of_ne_nil _ (by simp)]
          rw [show (' ' :: a2 :: m2 : List Char) = [' ', a2] ++ m2 from rfl]
          rw [← e1, List.getLast?_append_of_ne_nil _ (pad3_ne_nil p)]
          exact hd1
        rw [hlast2 d hlast] at hd2
        exact absurd hd2 (by decide)
      · have hsp : ' ' ∈ 'c' :: (pad3 c ++ [']']) := by
          rw [e2]
          exact List.mem_append_right _ (List.mem_cons_self _ _)
        rcases List.mem_cons.mp hsp with he | hsp
        · exact absurd he.symm (by decide)
        rcases List.mem_append.mp hsp with hsp | hsp
        · exact pad3_no_space c _ hsp rfl
        · simp at hsp
  | csvTag r =>
    simp only [suffixChars, List.cons_append] at hm
    injection hm with _ hm2
    cases m' with
    | nil =>
      simp only [List.nil_append] at hm2
      injection hm2 with hbad _
      exact absurd hbad (by decide)
    | cons a2 m2 =>
      simp only [List.cons_append] at hm2
      injection hm2 with ha2 hm3
      cases m2 with
      | nil =>
        simp only [List.nil_append] at hm3
        injection hm3 with hbad _
        exact absurd hbad (by decide)
      | cons a3 m3 =>
        simp only [List.cons_append] at hm3
        injection hm3 with ha3 hm4
        cases m3 with
        | nil =>
          simp only [List.nil_append] at hm4
          injection hm4 with hbad _
          exact absurd hbad (by decide)
        | cons a4 m4 =>
          simp only [List.cons_append] at hm4
          injection hm4 with ha4 hm5
          have hm5' : pad3 r ++ ' ' :: ['c', '0', '0', '0', ']'] = m4 ++ ' ' :: t2 := hm5
          rcases firstSpace (pad3 r) ['c', '0', '0', '0', ']'] m4 t2
            (pad3_no_space r) hm5' with ⟨e1, e2⟩ | ⟨w, e1, e2⟩
          · obtain ⟨d, hd1, hd2⟩ := pad3_getLast r
            have hlast : rel2.getLast? = some d := by
              rw [hrel2, List.getLast?_append_of_ne_nil _ (by simp)]
              rw [show (' ' :: a2 :: a3 :: a4 :: m4 : List Char) =
                [' ', a2, a3, a4] ++ m4 from rfl]
              rw [← e1, List.getLast?_append_of_ne_nil _ (pad3_ne_nil r)]
              exact hd1
            rw [hlast2 d hlast] at hd2
            exact absurd hd2 (by decide)
          · have hsp : ' ' ∈ (['c', '0', '0', '0', ']'] : List Char) := by
              rw [e2]
              exact List.mem_append_right _ (List.mem_cons_self _ _)
            simp at hsp
  | excelTag nm r =>
    simp only [suffixChars, List.cons_append] at hm
    injection hm with _ hm2
    cases m' with
    | nil =>
      simp only [List.nil_append] at hm2
      injection hm2 with hbad _
      exact absurd hbad (by decide)
    | cons a2 m2 =>
      simp only [List.cons_append] at hm2
      injection hm2 with ha2 hm3
      cases m2 with
      | nil =>
        simp only [List.nil_append] at hm3
        injection hm3 with hbad _
        exact absurd hbad (by decide)
      | cons a3 m3 =>
        simp only [List.cons_append] at hm3
        injection hm3 with ha3 hm4
        cases m3 with
        | nil =>
          simp only [List.nil_append] at hm4
          injection hm4 with hbad _
          exact absurd hbad (by decide)
        | cons a4 m4 =>
          simp only [List.cons_append] at hm4
          injection hm4 with ha4 hm5
          cases m4 with
          | nil =>
            simp only [List.nil_append] at hm5
            injection hm5 with hbad _
            exact absurd hbad (by decide)
          | cons a5 m5 =>
            simp only [List.cons_append] at hm5
            injection hm5 with ha5 hm6
            cases m5 with
            | nil =>
              simp only [List.nil_append] at hm6
              injection hm6 with hbad _
              exact absurd hbad (by decide)
            | cons a6 m6 =>
              simp only [List.cons_append] at hm6
              injection hm6 with ha6 hm7
              cases m6 with
              | nil =>
                simp only [List.nil_append] at hm7
                injection hm7 with hbad _
                exact absurd hbad (by decide)
              | cons a7 m7 =>
                simp only [List.cons_append] at hm7
                injection hm7 with ha7 hm8
                have hmarker : (' ' :: a2 :: a3 :: a4 :: a5 :: a6 :: a7 :: m7 : List Char) =
                    sheetMarker ++ m7 := by
                  rw [← ha2, ← ha3, ← ha4, ← ha5, ← ha6, ← ha7]
                  rfl
                rw [hrel2, hmarker, containsSeq_append_mid sheetMarker rel1 m7] at hclean2
                exact absurd hclean2 (by decide)

/-- For a fixed path, the tag determines the suffix. -/
theorem mkTag_inj_suffix (rel : List Char) : Function.Injective (mkTag rel) := by
  intro s1 s2 h
  rw [mkTag, mkTag, List.append_assoc, List.append_assoc] at h
  exact suffixChars_inj _ _ (List.append_cancel_left (List.append_cancel_left h))

/-- Citation tags of two records agree only if path and suffix agree, as
long as neither path ends in a digit or contains `" sheet:"`. -/
theorem mkTag_inj_full (rel1 rel2 : List Char) (s1 s2 : TagSuffix)
    (hlast1 : ∀ c, rel1.getLast? = some c → c.isDigit = false)
    (hlast2 : ∀ c, rel2.getLast? = some c → c.isDigit = false)
    (hclean1 : containsSeq sheetMarker rel1 = false)
    (hclean2 : containsSeq sheetMarker rel2 = false)
    (h : mkTag rel1 s1 = mkTag rel2 s2) : rel1 = rel2 ∧ s1 = s2 := by
  rw [mkTag, mkTag, List.append_assoc, List.append_assoc] at h
  have h1 : rel1 ++ suffixChars s1 = rel2 ++ suffixChars s2 := List.append_cancel_left h
  rcases List.append_eq_append_iff.mp h1 with ⟨k, hk1, hk2⟩ | ⟨k, hk1, hk2⟩
  · have hk0 : k = [] := mkTag_aux rel1 rel2 k s1 s2 hlast2 hclean2 hk1 hk2
    rw [hk0, List.append_nil] at hk1
    subst hk1
    rw [hk0, List.nil_append] at hk2
    exact ⟨rfl, suffixChars_inj _ _ hk2⟩
  · have hk0 : k = [] := mkTag_aux rel2 rel1 k s2 s1 hlast1 hclean1 hk1 hk2
    rw [hk0, List.append_nil] at hk1
    subst hk1
    rw [hk0, List.nil_append] at hk2
    exact ⟨rfl, (suffixChars_inj _ _ hk2).symm⟩

/-! ## Amended C3: within one run all citation tags are distinct -/

/-- A successful `optMap` pairs inputs and outputs pointwise. -/
theorem optMap_forall2 {α β : Type} (g : α → Option β) :
    ∀ (l : List α) (bs : List β), optMap g l = some bs →
      List.Forall₂ (fun a b => g a = some b) l bs := by
  intro l
  induction l with
  | nil =>
    intro bs h
    rw [optMap] at h
    injection h with h
    rw [← h]
    exact List.Forall₂.nil
  | cons a t ih =>
    intro bs h
    rw [optMap] at h
    cases hga : g a with
    | none => rw [hga] at h; exact absurd h (by simp)
    | some b =>
      rw [hga] at h
      cases hrec : optMap g t with
      | none => rw [hrec] at h; exact absurd h (by simp)
      | some bs2 =>
        rw [hrec] at h
        simp only [Option.some.injEq] at h
        rw [← h]
        exact List.Forall₂.cons hga (ih bs2 hrec)

/-- Every element of the right list of a `Forall₂` has a partner on the
left. -/
theorem forall2_mem_right {α β : Type} {P : α → β → Prop} :
    ∀ {l1 : List α} {l2 : List β}, List.Forall₂ P l1 l2 →
      ∀ y ∈ l2, ∃ a, a ∈ l1 ∧ P a y := by
  intro l1 l2 hf
  induction hf with
  | nil => intro y hy; exact absurd hy (by simp)
  | @cons a b t1 t2 hab htail ih =>
    intro y hy
    rcases List.mem_cons.mp hy with h | h
    · exact ⟨a, List.mem_cons_self a t1, h ▸ hab⟩
    · obtain ⟨a2, hm, hp⟩ := ih y h
      exact ⟨a2, List.mem_cons_of_mem a hm, hp⟩

/-- Transfer a `Pairwise` relation across a `Forall₂` pairing. -/
theorem pairwise_forall2 {α β : Type} (P : α → β → Prop) (R : α → α → Prop)
    (S : β → β → Prop)
    (himp : ∀ a b x y, R a b → P a x → P b y → S x y) :
    ∀ {l1 : List α} {l2 : List β}, List.Forall₂ P l1 l2 → l1.Pairwise R →
      l2.Pairwise S := by
  intro l1 l2 hf
  induction hf with
  | nil => intro _; exact List.Pairwise.nil
  | @cons a b t1 t2 hab htail ih =>
    intro hp
    rcases List.pairwise_cons.mp hp with ⟨hhead, hptail⟩
    refine List.pairwise_cons.mpr ⟨?_, ih hptail⟩
    intro y hy
    obtain ⟨a2, ha2mem, ha2P⟩ := forall2_mem_right htail y hy
    exact himp a a2 b y (hhead a2 ha2mem) hab ha2P

/-- `filterMap` sends a `Pairwise R` list to a `Pairwise S` list when `R`
on the sources forces `S` on any produced values. -/
theorem pairwise_filterMap_of {α β : Type} (R : α → α → Prop) (S : β → β → Prop)
    (f : α → Option β)
    (h : ∀ a b x y, R a b → f a = some x → f b = some y → S x y) :
    ∀ l : List α, l.Pairwise R → (l.filterMap f).Pairwise S := by
  intro l
  induction l with
  | nil => intro _; simp
  | cons a t ih =>
    intro hp
    rcases List.pairwise_cons.mp hp with ⟨hhead, hptail⟩
    cases hfa : f a with
    | none => rw [List.filterMap_cons_none hfa]; exact ih hptail
    | some b =>
      rw [List.filterMap_cons_some hfa]
      refine List.pairwise_cons.mpr ⟨?_, ih hptail⟩
      intro y hy
      obtain ⟨a2, ha2mem, ha2⟩ := List.mem_filterMap.mp hy
      exact h a a2 b y (hhead a2 ha2mem) hfa ha2

/-- The first components of `l.enum` are pairwise distinct. -/
theorem enum_pairwise_fst {α : Type} (l : List α) :
    l.enum.Pairwise (fun a b => a.1 ≠ b.1) := by
  have h1 : (l.enum.map Prod.fst).Pairwise (fun a b => a ≠ b) := by
    rw [List.enum_map_fst]
    exact List.nodup_range l.length
  exact List.pairwise_map.mp h1

/-- A non-empty `takeWhile` starts where the list starts. -/
theorem head_takeWhile_of_ne_nil (p : Char → Bool) (l : List Char)
    (h : l.takeWhile p ≠ []) : l.head? = (l.takeWhile p).head? := by
  cases l with
  | nil => exact absurd rfl h
  | cons a t =>
    by_cases hp : p a
    · simp [List.takeWhile_cons, hp]
    · rw [List.takeWhile_cons] at h
      simp [hp] at h

/-- A digit character is its own lower-casing. -/
theorem toLower_digit (c : Char) (h : c.isDigit = true) : c.toLower = c := by
  rw [Char.toLower]
  simp [Char.isDigit, Char.le_def] at h
  rw [if_neg]
  simp only [Bool.and_eq_true, decide_eq_true_eq, not_and]
  intro h1
  exfalso
  have h2 : c.val ≤ 57 := h.2
  have h3 : c.toNat ≥ 65 := h1
  rw [Char.toNat] at h3
  rw [UInt32.le_def] at h2
  have h4 : c.val.toNat ≤ 57 := by exact_mod_cast h2
  omega

/-- Let-free unfolding of `extOf`. -/
theorem extOf_eq (r : List Char) :
    extOf r =
      if ((r.reverse.takeWhile (fun c => !(c == '/'))).takeWhile
            (fun c => !(c == '.'))).length <
          (r.reverse.takeWhile (fun c => !(c == '/'))).length then
        if ((r.reverse.takeWhile (fun c => !(c == '/'))).drop
              (((r.reverse.takeWhile (fun c => !(c == '/'))).takeWhile
                (fun c => !(c == '.'))).length + 1)).any (fun c => !(c == '.')) then
          '.' :: (((r.reverse.takeWhile (fun c => !(c == '/'))).takeWhile
            (fun c => !(c == '.'))).reverse.map Char.toLower)
        else []
      else [] := rfl

/-- A non-empty extension ends in the lower-casing of the path's last
character. -/
theorem extOf_getLast (r : List Char) (h : extOf r ≠ []) :
    ∃ c, r.getLast? = some c ∧ (extOf r).getLast? = some c.toLower := by
  rw [extOf_eq] at h ⊢
  by_cases h1 : ((r.reverse.takeWhile (fun c => !(c == '/'))).takeWhile
      (fun c => !(c == '.'))).length <
      (r.reverse.takeWhile (fun c => !(c == '/'))).length
  · rw [if_pos h1] at h ⊢
    by_cases h2 : ((r.reverse.takeWhile (fun c => !(c == '/'))).drop
        (((r.reverse.takeWhile (fun c => !(c == '/'))).takeWhile
          (fun c => !(c == '.'))).length + 1)).any (fun c => !(c == '.')) = true
    · rw [if_pos h2] at h ⊢
      clear h h2
      have hnm : r.reverse.takeWhile (fun c => !(c == '/')) ≠ [] := by
        intro he
        rw [he] at h1
        simp at h1
      have hrev : r.reverse ≠ [] := by
        intro he
        rw [he] at hnm
        exact hnm rfl
      obtain ⟨c0, t0, ht0⟩ := List.exists_cons_of_ne_nil hrev
      have hlast : r.getLast? = some c0 := by
        rw [← List.head?_reverse, ht0]
        rfl
      have hnmhead : (r.reverse.takeWhile (fun c => !(c == '/'))).head? = some c0 := by
        rw [← head_takeWhile_of_ne_nil _ _ hnm, ht0]
        rfl
      refine ⟨c0, hlast, ?_⟩
      cases had : (r.reverse.takeWhile (fun c => !(c == '/'))).takeWhile
          (fun c => !(c == '.')) with
      | nil =>
        obtain ⟨a, ta, hta⟩ := List.exists_cons_of_ne_nil hnm
        rw [hta] at hnmhead had
        simp only [List.head?_cons, Option.some.injEq] at hnmhead
        rw [List.takeWhile_cons] at had
        by_cases hqa : (!(a == '.')) = true
        · rw [if_pos hqa] at had
          exact absurd had (by simp)
        · have ha : a = '.' := by
            simp at hqa
            exact hqa
          rw [← hnmhead, ha]
          decide
      | cons a ta =>
        have hc0 : c0 = a := by
          have hh := head_takeWhile_of_ne_nil (fun c => !(c == '.'))
            (r.reverse.takeWhile (fun c => !(c == '/'))) (by rw [had]; simp)
          rw [had, hnmhead] at hh
          simp only [List.head?_cons, Option.some.injEq] at hh
          exact hh
        rw [show ('.' :: ((a :: ta).reverse.map Char.toLower) : List Char) =
          ['.'] ++ ((a :: ta).reverse.map Char.toLower) from rfl]
        rw [List.getLast?_append_of_ne_nil _ (by simp)]
        rw [List.map_reverse, List.getLast?_reverse, List.head?_map]
        rw [hc0]
        rfl
    · rw [if_neg h2] at h
      exact absurd rfl h
  · rw [if_neg h1] at h
    exact absurd rfl h

/-- A supported extension is non-empty. -/
theorem supportedExt_ne_nil (e : List Char) (h : supportedExt e = true) :
    e ≠ [] := by
  intro he
  rw [he] at h
  exact absurd h (by decide)

/-- Every supported extension ends in a letter, never a digit. -/
theorem supportedExt_last (e : List Char) (h : supportedExt e = true) :
    ∃ d, e.getLast? = some d ∧ d.isDigit = false := by
  rw [supportedExt] at h
  simp only [extsPdf, extsImg, extsTxt, extsCsv, extsXlsx, Bool.or_eq_true,
    decide_eq_true_eq, List.mem_cons, List.mem_singleton,
    List.not_mem_nil, or_false] at h
  rcases h with (((h | (h | h | h | h | h | h | h)) | (h | h | h | h | h | h)) | h) |
    (h | h | h)
  all_goals (subst h; exact ⟨_, rfl, by decide⟩)

/-- A path with a supported extension does not end in a digit. -/
theorem supported_last_not_digit (r : List Char)
    (hs : supportedExt (extOf r) = true) :
    ∀ c, r.getLast? = some c → c.isDigit = false := by
  intro c hc
  obtain ⟨c0, hc0, hext⟩ := extOf_getLast r (supportedExt_ne_nil _ hs)
  rw [hc] at hc0
  injection hc0 with hc0
  subst hc0
  obtain ⟨d, hd, hdig⟩ := supportedExt_last _ hs
  rw [hd] at hext
  injection hext with hext
  by_contra hcd
  rw [Bool.not_eq_false] at hcd
  rw [toLower_digit c hcd] at hext
  rw [hext] at hdig
  rw [hcd] at hdig
  exact absurd hdig (by simp)

/-- `Nodup` specialization of `pairwise_filterMap_of`. -/
theorem nodup_filterMap_of {α β : Type} (R : α → α → Prop) (f : α → Option β)
    (h : ∀ a b x y, R a b → f a = some x → f b = some y → x ≠ y) :
    ∀ l : List α, l.Pairwise R → (l.filterMap f).Nodup :=
  fun l hp => pairwise_filterMap_of R (fun x y => x ≠ y) f h l hp

/-- `Nodup` of a mapped list from pairwise distinctness of the images. -/
theorem nodup_map_of {α β : Type} (R : α → α → Prop) (f : α → β)
    (h : ∀ a b, R a b → f a ≠ f b) :
    ∀ l : List α, l.Pairwise R → (l.map f).Nodup := by
  intro l hp
  exact List.pairwise_map.mpr (hp.imp (fun hab => h _ _ hab))

/-- Chunk-branch records: distinct tags of the shape `mkTag rel (sh ci)`. -/
theorem chunkRecs_tags (rel ftype : List Char) (page : Option Nat)
    (sh : Nat → TagSuffix) (hinj : ∀ i j, sh i = sh j → i = j)
    (txt : List Char) (C O : Nat) (rs : List MetaRec)
    (hp : chunkRecs rel ftype page (fun ci => mkTag rel (sh ci)) txt C O = some rs) :
    (rs.map MetaRec.tag).Nodup ∧
    ∀ t ∈ rs.map MetaRec.tag, ∃ ci, t = mkTag rel (sh ci) := by
  rw [chunkRecs] at hp
  obtain ⟨cs, hcs, hrs⟩ := Option.map_eq_some'.mp hp
  subst hrs
  constructor
  · rw [List.map_map]
    refine List.pairwise_map.mpr ?_
    refine (enum_pairwise_fst cs).imp ?_
    intro a b hne heq2
    exact hne (hinj _ _ (mkTag_inj_suffix rel heq2))
  · intro t ht
    rw [List.map_map] at ht
    obtain ⟨ic, hic, rfl⟩ := List.mem_map.mp ht
    exact ⟨ic.1, rfl⟩

/-- CSV-branch records: distinct tags of the shape `mkTag rel _`. -/
theorem csvRecs_tags (rel : List Char) (rows : List (List (List Char))) :
    ((csvRecs rel rows).map MetaRec.tag).Nodup ∧
    ∀ t ∈ (csvRecs rel rows).map MetaRec.tag, ∃ s, t = mkTag rel s := by
  constructor
  · rw [csvRecs, List.map_filterMap]
    refine nodup_filterMap_of (fun a b => a.1 ≠ b.1) _ ?_ rows.enum
      (enum_pairwise_fst rows)
    intro a b x y hab hx hy
    by_cases ha : pyStrip (csvLine a.2) = []
    · rw [if_pos ha] at hx
      exact absurd hx (by simp)
    · rw [if_neg ha] at hx
      by_cases hb : pyStrip (csvLine b.2) = []
      · rw [if_pos hb] at hy
        exact absurd hy (by simp)
      · rw [if_neg hb] at hy
        simp only [Option.map_some', Option.some.injEq] at hx hy
        intro hxy
        rw [← hx, ← hy] at hxy
        have h2 : mkTagCsv rel a.1 = mkTagCsv rel b.1 := hxy
        have h3 := mkTag_inj_suffix rel h2
        injection h3 with h4
        exact hab h4
  · intro t ht
    obtain ⟨r0, hr0, rfl⟩ := List.mem_map.mp ht
    rw [csvRecs] at hr0
    obtain ⟨rr, hrr, hf⟩ := List.mem_filterMap.mp hr0
    by_cases hc : pyStrip (csvLine rr.2) = []
    · rw [if_pos hc] at hf
      exact absurd hf (by simp)
    · rw [if_neg hc] at hf
      injection hf with hf
      refine ⟨TagSuffix.csvTag rr.1, ?_⟩
      rw [← hf]
      rfl

/-- One Excel sheet: distinct tags, all carrying this sheet's name. -/
theorem excelSheetRecs_tags (rel : List Char) (sd : SheetData) :
    ((excelSheetRecs rel sd).map MetaRec.tag).Nodup ∧
    ∀ t ∈ (excelSheetRecs rel sd).map MetaRec.tag,
      ∃ r0, t = mkTag rel (TagSuffix.excelTag sd.name r0) := by
  rw [excelSheetRecs]
  by_cases hemp : sd.rows = [] ∨ sd.cols = []
  · rw [if_pos hemp]
    exact ⟨by simp, by simp⟩
  · rw [if_neg hemp]
    constructor
    · rw [List.map_filterMap]
      refine nodup_filterMap_of (fun a b => a.1 ≠ b.1) _ ?_ sd.rows.enum
        (enum_pairwise_fst sd.rows)
      intro a b x y hab hx hy
      by_cases ha : pyStrip (formatDfRow (normalizeCols sd.cols) a.2) = []
      · rw [if_pos ha] at hx
        exact absurd hx (by simp)
      · rw [if_neg ha] at hx
        by_cases hb : pyStrip (formatDfRow (normalizeCols sd.cols) b.2) = []
        · rw [if_pos hb] at hy
          exact absurd hy (by simp)
        · rw [if_neg hb] at hy
          simp only [Option.map_some', Option.some.injEq] at hx hy
          intro hxy
          rw [← hx, ← hy] at hxy
          have h2 : mkTagExcel rel sd.name a.1 = mkTagExcel rel sd.name b.1 := hxy
          have h3 := mkTag_inj_suffix rel h2
          injection h3 with h4 h5
          exact hab h5
    · intro t ht
      obtain ⟨r0, hr0, rfl⟩ := List.mem_map.mp ht
      obtain ⟨rr, hrr, hf⟩ := List.mem_filterMap.mp hr0
      by_cases hc : pyStrip (formatDfRow (normalizeCols sd.cols) rr.2) = []
      · rw [if_pos hc] at hf
        exact absurd hf (by simp)
      · rw [if_neg hc] at hf
        injection hf with hf
        refine ⟨rr.1, ?_⟩
        rw [← hf]
        rfl

/-- Excel-branch records over a workbook with pairwise-distinct sheet
names: distinct tags of the shape `mkTag rel _`. -/
theorem excelRecs_tags (rel : List Char) (sheets : List SheetData)
    (hnames : (sheets.map SheetData.name).Nodup) :
    ((excelRecs rel sheets).map MetaRec.tag).Nodup ∧
    ∀ t ∈ (excelRecs rel sheets).map MetaRec.tag, ∃ s, t = mkTag rel s := by
  constructor
  · rw [excelRecs, List.map_flatten, List.map_map]
    rw [List.nodup_flatten]
    constructor
    · intro tl htl
      obtain ⟨sd, hsd, rfl⟩ := List.mem_map.mp htl
      exact (excelSheetRecs_tags rel sd).1
    · rw [List.pairwise_map]
      have hpn : sheets.Pairwise (fun s1 s2 => s1.name ≠ s2.name) :=
        List.pairwise_map.mp hnames
      refine hpn.imp ?_
      intro s1 s2 hne t ht1 ht2
      obtain ⟨r1, hr1⟩ := (excelSheetRecs_tags rel s1).2 t ht1
      obtain ⟨r2, hr2⟩ := (excelSheetRecs_tags rel s2).2 t ht2
      rw [hr1] at hr2
      have h3 := mkTag_inj_suffix rel hr2
      injection h3 with h4 h5
      exact hne h4
  · intro t ht
    rw [excelRecs, List.map_flatten, List.map_map] at ht
    obtain ⟨tl, htl, htmem⟩ := List.mem_flatten.mp ht
    obtain ⟨sd, hsd, rfl⟩ := List.mem_map.mp htl
    obtain ⟨r0, hr0⟩ := (excelSheetRecs_tags rel sd).2 t htmem
    exact ⟨TagSuffix.excelTag sd.name r0, hr0⟩

/-- PDF-branch records over the enumerated pages: distinct tags of the
shape `mkTag rel _`. -/
theorem pdf_tags {Img : Type} (ocr : Img → List Char) (rel : List Char)
    (C O : Nat) (pages : List Img) (recss : List (List MetaRec))
    (hp : optMap (fun ip => chunkRecs rel ['p','d','f'] (some (ip.1 + 1))
        (fun ci => mkTagPdf rel (ip.1 + 1) ci) (normWsL (ocr ip.2)) C O)
        pages.enum = some recss) :
    ((recss.flatten).map MetaRec.tag).Nodup ∧
    ∀ t ∈ (recss.flatten).map MetaRec.tag, ∃ s, t = mkTag rel s := by
  have hf2 := optMap_forall2 _ pages.enum recss hp
  constructor
  · rw [List.map_flatten]
    rw [List.nodup_flatten]
    constructor
    · intro tl htl
      obtain ⟨rsp, hmem, rfl⟩ := List.mem_map.mp htl
      obtain ⟨ip, hipmem, hipP⟩ := forall2_mem_right hf2 rsp hmem
      exact (chunkRecs_tags rel ['p','d','f'] (some (ip.1 + 1))
        (fun ci => TagSuffix.pdfTag (ip.1 + 1) ci)
        (fun i j hij => (TagSuffix.pdfTag.inj hij).2) _ C O rsp hipP).1
    · rw [List.pairwise_map]
      refine pairwise_forall2 _ (fun a b : Nat × Img => a.1 ≠ b.1)
        (fun x y : List MetaRec =>
          List.Disjoint (x.map MetaRec.tag) (y.map MetaRec.tag)) ?_ hf2
        (enum_pairwise_fst pages)
      intro a b x y hne hax hby t htx hty
      obtain ⟨c1, hc1⟩ := (chunkRecs_tags rel ['p','d','f'] (some (a.1 + 1))
        (fun ci => TagSuffix.pdfTag (a.1 + 1) ci)
        (fun i j hij => (TagSuffix.pdfTag.inj hij).2) _ C O x hax).2 t htx
      obtain ⟨c2, hc2⟩ := (chunkRecs_tags rel ['p','d','f'] (some (b.1 + 1))
        (fun ci => TagSuffix.pdfTag (b.1 + 1) ci)
        (fun i j hij => (TagSuffix.pdfTag.inj hij).2) _ C O y hby).2 t hty
      rw [hc1] at hc2
      have h3 := mkTag_inj_suffix rel hc2
      injection h3 with h4 h5
      exact hne (by omega)
  · intro t ht
    rw [List.map_flatten] at ht
    obtain ⟨tl, htl, htmem⟩ := List.mem_flatten.mp ht
    obtain ⟨rsp, hmem, rfl⟩ := List.mem_map.mp htl
    obtain ⟨ip, hipmem, hipP⟩ := forall2_mem_right hf2 rsp hmem
    obtain ⟨ci, hci⟩ := (chunkRecs_tags rel ['p','d','f'] (some (ip.1 + 1))
      (fun ci => TagSuffix.pdfTag (ip.1 + 1) ci)
      (fun i j hij => (TagSuffix.pdfTag.inj hij).2) _ C O rsp hipP).2 t htmem
    exact ⟨TagSuffix.pdfTag (ip.1 + 1) ci, hci⟩

/-- All records a single file produces carry pairwise-distinct tags, each
of the shape `mkTag f.rel _` (for a workbook, sheet names must be
pairwise distinct — pandas guarantees this for one file). -/
theorem processFile_tags {Img : Type} (ocr : Img → List Char) (C O : Nat)
    (f : FileEntry Img) (rs : List MetaRec)
    (hsheets : ∀ sheets, f.content = FileContent.excelDoc sheets →
      (sheets.map SheetData.name).Nodup)
    (hp : processFile ocr C O f = some rs) :
    (rs.map MetaRec.tag).Nodup ∧ ∀ t ∈ rs.map MetaRec.tag, ∃ s, t = mkTag f.rel s := by
  obtain ⟨rel0, c0⟩ := f
  cases c0 with
  | pdfDoc pages =>
    simp only [processFile] at hp
    by_cases h1 : decide (extOf rel0 ∈ extsPdf) = true
    · rw [if_pos h1] at hp
      obtain ⟨recss, hrecss, hflat⟩ := Option.map_eq_some'.mp hp
      subst hflat
      exact pdf_tags ocr rel0 C O pages recss hrecss
    · rw [if_neg h1] at hp
      simp only [ite_self] at hp
      exact absurd hp (by simp)
  | imageDoc img =>
    simp only [processFile] at hp
    by_cases h1 : decide (extOf rel0 ∈ extsPdf) = true
    · rw [if_pos h1] at hp
      exact absurd hp (by simp)
    · rw [if_neg h1] at hp
      by_cases h2 : decide (extOf rel0 ∈ extsImg) = true
      · rw [if_pos h2] at hp
        obtain ⟨hn, hs⟩ := chunkRecs_tags rel0 ['i','m','a','g','e'] none
          TagSuffix.chunkTag (fun i j hij => TagSuffix.chunkTag.inj hij)
          (normWsL (ocr img)) C O rs hp
        exact ⟨hn, fun t ht => (hs t ht).elim
          (fun ci h => ⟨TagSuffix.chunkTag ci, h⟩)⟩
      · rw [if_neg h2] at hp
        simp only [ite_self] at hp
        exact absurd hp (by simp)
  | textDoc d =>
    simp only [processFile] at hp
    by_cases h1 : decide (extOf rel0 ∈ extsPdf) = true
    · rw [if_pos h1] at hp
      exact absurd hp (by simp)
    · rw [if_neg h1] at hp
      by_cases h2 : decide (extOf rel0 ∈ extsImg) = true
      · rw [if_pos h2] at hp
        exact absurd hp (by simp)
      · rw [if_neg h2] at hp
        by_cases h3 : decide (extOf rel0 ∈ extsTxt) = true
        · rw [if_pos h3] at hp
          obtain ⟨hn, hs⟩ := chunkRecs_tags rel0 ['t','e','x','t'] none
            TagSuffix.chunkTag (fun i j hij => TagSuffix.chunkTag.inj hij)
            (normWsL d) C O rs hp
          exact ⟨hn, fun t ht => (hs t ht).elim
            (fun ci h => ⟨TagSuffix.chunkTag ci, h⟩)⟩
        · rw [if_neg h3] at hp
          simp only [ite_self] at hp
          exact absurd hp (by simp)
  | csvDoc rows =>
    simp only [processFile] at hp
    by_cases h1 : decide (extOf rel0 ∈ extsPdf) = true
    · rw [if_pos h1] at hp
      exact absurd hp (by simp)
    · rw [if_neg h1] at hp
      by_cases h2 : decide (extOf rel0 ∈ extsImg) = true
      · rw [if_pos h2] at hp
        exact absurd hp (by simp)
      · rw [if_neg h2] at hp
        by_cases h3 : decide (extOf rel0 ∈ extsTxt) = true
        · rw [if_pos h3] at hp
          exact absurd hp (by simp)
        · rw [if_neg h3] at hp
          by_cases h4 : decide (extOf rel0 ∈ extsCsv) = true
          · rw [if_pos h4] at hp
            injection hp with hp
            rw [← hp]
            exact csvRecs_tags rel0 rows
          · rw [if_neg h4] at hp
            simp only [ite_self] at hp
            exact absurd hp (by simp)
  | excelDoc sheets =>
    simp only [processFile] at hp
    by_cases h1 : decide (extOf rel0 ∈ extsPdf) = true
    · rw [if_pos h1] at hp
      exact absurd hp (by simp)
    · rw [if_neg h1] at hp
      by_cases h2 : decide (extOf rel0 ∈ extsImg) = true
      · rw [if_pos h2] at hp
        exact absurd hp (by simp)
      · rw [if_neg h2] at hp
        by_cases h3 : decide (extOf rel0 ∈ extsTxt) = true
        · rw [if_pos h3] at hp
          exact absurd hp (by simp)
        · rw [if_neg h3] at hp
          by_cases h4 : decide (extOf rel0 ∈ extsCsv) = true
          · rw [if_pos h4] at hp
            exact absurd hp (by simp)
          · rw [if_neg h4] at hp
            by_cases h5 : decide (extOf rel0 ∈ extsXlsx) = true
            · rw [if_pos h5] at hp
              injection hp with hp
              rw [← hp]
              exact excelRecs_tags rel0 sheets (hsheets sheets rfl)
            · rw [if_neg h5] at hp
              exact absurd hp (by simp)

/-- A `Forall₂` can record membership of the left components. -/
theorem forall2_and_mem {α β : Type} {P : α → β → Prop} :
    ∀ {l1 : List α} {l2 : List β}, List.Forall₂ P l1 l2 →
      List.Forall₂ (fun a b => P a b ∧ a ∈ l1) l1 l2 := by
  intro l1 l2 hf
  induction hf with
  | nil => exact List.Forall₂.nil
  | @cons a b t1 t2 hab htail ih =>
    refine List.Forall₂.cons ⟨hab, List.mem_cons_self a t1⟩ ?_
    exact List.Forall₂.imp (fun x y h => ⟨h.1, List.mem_cons_of_mem a h.2⟩) ih

/-- **C3** (amended): within one successful run of `ingest_folder`, the
citation tags of the produced metadata records are pairwise distinct,
provided no walked relative path contains the substring `" sheet:"` (the
walked paths themselves are pairwise distinct, and sheet names within one
workbook are distinct, as `os.walk` and pandas guarantee). -/
theorem citation_tags_nodup {Img : Type} (ocr : Img → List Char) (C O : Nat)
    (allFiles : List (FileEntry Img)) (ms : List MetaRec) (ws : List Artifact)
    (hrels : (allFiles.map FileEntry.rel).Nodup)
    (hclean : ∀ f ∈ allFiles, containsSeq sheetMarker f.rel = false)
    (hsheets : ∀ f ∈ allFiles, ∀ sheets, f.content = FileContent.excelDoc sheets →
      (sheets.map SheetData.name).Nodup)
    (hrun : ingestFolder ocr C O allFiles = some (Except.ok ms, ws)) :
    (ms.map MetaRec.tag).Nodup := by
  simp only [ingestFolder] at hrun
  by_cases hemp : (allFiles.filter (fun f => supportedExt (extOf f.rel))).isEmpty
  · rw [if_pos hemp] at hrun
    simp at hrun
  · rw [if_neg hemp] at hrun
    cases hopt : optMap (processFile ocr C O)
        (allFiles.filter (fun f => supportedExt (extOf f.rel))) with
    | none =>
      rw [hopt] at hrun
      simp at hrun
    | some recss =>
      rw [hopt] at hrun
      have hrun2 : (if recss.flatten.isEmpty = true
          then some ((Except.error IngestErr.noChunks :
            Except IngestErr (List MetaRec)), ([] : List Artifact))
          else some (Except.ok recss.flatten,
            [Artifact.vecIndex, Artifact.metaFile, Artifact.manifest])) =
          some (Except.ok ms, ws) := hrun
      by_cases h2 : recss.flatten.isEmpty = true
      · rw [if_pos h2] at hrun2
        simp at hrun2
      · rw [if_neg h2] at hrun2
        injection hrun2 with hrun3
        injection hrun3 with hok hws
        injection hok with hok2
        rw [← hok2]
        have hf2 := optMap_forall2 (processFile ocr C O) _ recss hopt
        have hf3 := forall2_and_mem hf2
        rw [List.map_flatten, List.nodup_flatten]
        constructor
        · intro tl htl
          obtain ⟨rsp, hmem, rfl⟩ := List.mem_map.mp htl
          obtain ⟨f0, hf0mem, hf0P⟩ := forall2_mem_right hf2 rsp hmem
          have hf0all : f0 ∈ allFiles := List.mem_of_mem_filter hf0mem
          exact (processFile_tags ocr C O f0 rsp
            (fun sheets hcontent => hsheets f0 hf0all sheets hcontent) hf0P).1
        · rw [List.pairwise_map]
          have h4 : allFiles.Pairwise (fun f g => f.rel ≠ g.rel) :=
            List.pairwise_map.mp hrels
          have hpR : (allFiles.filter
              (fun f => supportedExt (extOf f.rel))).Pairwise
              (fun f g => f.rel ≠ g.rel) :=
            List.Pairwise.sublist (List.filter_sublist allFiles) h4
          refine pairwise_forall2 _ (fun f g : FileEntry Img => f.rel ≠ g.rel)
            (fun x y : List MetaRec =>
              List.Disjoint (x.map MetaRec.tag) (y.map MetaRec.tag)) ?_ hf3 hpR
          intro f1 f2 x y hne hP1 hP2 t htx hty
          obtain ⟨hproc1, hmem1⟩ := hP1
          obtain ⟨hproc2, hmem2⟩ := hP2
          have hall1 : f1 ∈ allFiles := List.mem_of_mem_filter hmem1
          have hall2 : f2 ∈ allFiles := List.mem_of_mem_filter hmem2
          obtain ⟨s1, hs1⟩ := (processFile_tags ocr C O f1 x
            (fun sheets hcontent => hsheets f1 hall1 sheets hcontent) hproc1).2 t htx
          obtain ⟨s2, hs2⟩ := (processFile_tags ocr C O f2 y
            (fun sheets hcontent => hsheets f2 hall2 sheets hcontent) hproc2).2 t hty
          rw [hs1] at hs2
          have hsupp1p := List.of_mem_filter hmem1
          have hsupp2p := List.of_mem_filter hmem2
          have hsupp1 : supportedExt (extOf f1.rel) = true := hsupp1p
          have hsupp2 : supportedExt (extOf f2.rel) = true := hsupp2p
          have hfull := mkTag_inj_full f1.rel f2.rel s1 s2
            (supported_last_not_digit f1.rel hsupp1)
            (supported_last_not_digit f2.rel hsupp2)
            (hclean f1 hall1) (hclean f2 hall2) hs2
          exact hne hfull.1

/-- Witness for the amended C3 theorem: a folder holding one text file
`a.txt` with body `hi`, chunked at size 5 / overlap 1. -/
theorem citation_tags_nodup_witness :
    (([{ rel := ['a','.','t','x','t'], ftype := ['t','e','x','t'], page := none,
         sheet := none, row := none, chunk_id := 0,
         tag := mkTagChunk ['a','.','t','x','t'] 0,
         text := ['h','i'] }] : List MetaRec).map MetaRec.tag).Nodup :=
  citation_tags_nodup (fun _ : Unit => ([] : List Char)) 5 1
    [⟨['a','.','t','x','t'], FileContent.textDoc ['h','i']⟩]
    [{ rel := ['a','.','t','x','t'], ftype := ['t','e','x','t'], page := none,
       sheet := none, row := none, chunk_id := 0,
       tag := mkTagChunk ['a','.','t','x','t'] 0,
       text := ['h','i'] }]
    [Artifact.vecIndex, Artifact.metaFile, Artifact.manifest]
    (by decide) (by decide)
    (fun f hf sheets hc => by
      rcases List.mem_singleton.mp hf with rfl
      exact FileContent.noConfusion hc)
    (by decide)
